import Mathlib

/-!
# Shallow embedding of `src/vigenereCipher.js` (String-Encryption-Vault)

JavaScript strings are modelled as lists of UTF-16 code units (`List Nat`).
`String.prototype.toUpperCase` / `toLowerCase` are modelled on the ASCII
range (identity elsewhere); every input exercised by the specification's
claims is ASCII.  The JavaScript `%` operator on integers is truncated
remainder, i.e. `Int.tmod`; `String.fromCharCode` applies `ToUint16`,
i.e. reduction modulo 65536.  JavaScript `Map` iteration order is insertion
order, modelled by association lists; `Array.prototype.sort` is a stable
sort (ES2019), modelled by a stable insertion sort.
-/

namespace Vigenere

/-- A JavaScript string: its list of UTF-16 code units. -/
abbrev JSStr := List Nat

/-- Models `/[A-Z]/.test(c)` on a single code unit. -/
def isUpperCode (c : Nat) : Bool := 65 ≤ c && c ≤ 90

/-- Models `/[a-z]/.test(c)` on a single code unit. -/
def isLowerCode (c : Nat) : Bool := 97 ≤ c && c ≤ 122

/-- Models `/[A-Za-z]/.test(c)` on a single code unit (the letter test used by
`encrypt`/`decrypt`). -/
def isAlphaCode (c : Nat) : Bool := isUpperCode c || isLowerCode c

/-- Models `toUpperCase` on one code unit (ASCII fragment; identity elsewhere). -/
def toUpperCode (c : Nat) : Nat := if isLowerCode c then c - 32 else c

/-- Models `toLowerCase` on one code unit (ASCII fragment; identity elsewhere). -/
def toLowerCode (c : Nat) : Nat := if isUpperCode c then c + 32 else c

/-- Models `s.toUpperCase()`. -/
def jsToUpper (s : JSStr) : JSStr := s.map toUpperCode

/-- Models `s.toLowerCase()`. -/
def jsToLower (s : JSStr) : JSStr := s.map toLowerCode

/-- Models `String.fromCharCode(x)`: ToUint16 then the code unit. -/
def fromCharCode (x : Int) : Nat := (x % 65536).toNat

/-- Convenience: code units of an ASCII Lean string literal. -/
def S (s : String) : JSStr := s.data.map Char.toNat

/-- The body of the letter branch of `encrypt`:
`String.fromCharCode(((charCode - base + shift) % 26) + base)` with
`base = 65` for upper-case letters and `97` for lower-case ones. -/
def encShift (shift : Int) (c : Nat) : Nat :=
  if isUpperCode c then fromCharCode (((c : Int) - 65 + shift).tmod 26 + 65)
  else fromCharCode (((c : Int) - 97 + shift).tmod 26 + 97)

/-- The body of the letter branch of `decrypt`:
`String.fromCharCode(((charCode - base - shift + 26) % 26) + base)`. -/
def decShift (shift : Int) (c : Nat) : Nat :=
  if isUpperCode c then fromCharCode (((c : Int) - 65 - shift + 26).tmod 26 + 65)
  else fromCharCode (((c : Int) - 97 - shift + 26).tmod 26 + 97)

/-- The character loop of `encrypt`: walks the plaintext, threading the key
cursor `keyIndex`, which advances only on alphabetic characters. -/
def encryptGo (keyUpper : JSStr) : Nat → JSStr → JSStr
  | _, [] => []
  | keyIndex, c :: rest =>
    if isAlphaCode c then
      encShift ((keyUpper.getD (keyIndex % keyUpper.length) 0 : Nat) - 65 : Int)
          c ::
        encryptGo keyUpper (keyIndex + 1) rest
    else
      c :: encryptGo keyUpper keyIndex rest

/-- The character loop of `decrypt`. -/
def decryptGo (keyUpper : JSStr) : Nat → JSStr → JSStr
  | _, [] => []
  | keyIndex, c :: rest =>
    if isAlphaCode c then
      decShift ((keyUpper.getD (keyIndex % keyUpper.length) 0 : Nat) - 65 : Int)
          c ::
        decryptGo keyUpper (keyIndex + 1) rest
    else
      c :: decryptGo keyUpper keyIndex rest

/-- A JavaScript value, as far as the module's `typeof` checks observe it. -/
inductive JSValue where
  | str (s : JSStr)
  | num (n : Int)
  | boolean (b : Bool)
  | nullV
  | undefinedV
deriving DecidableEq

/-- Returns `true` exactly when `typeof v === 'string'`. -/
def JSValue.isString : JSValue → Bool
  | .str _ => true
  | _ => false

/-- A thrown error: `TypeError` vs plain `Error`. -/
inductive JSError where
  | typeError (msg : String)
  | genericError (msg : String)
deriving DecidableEq

/-- Models `encrypt(plaintext, key)` on raw strings, after validation. -/
def encryptStr (plaintext key : JSStr) : JSStr :=
  encryptGo (jsToUpper key) 0 plaintext

/-- Models `decrypt(ciphertext, key)` on raw strings, after validation. -/
def decryptStr (ciphertext key : JSStr) : JSStr :=
  decryptGo (jsToUpper key) 0 ciphertext

/-- Models `encrypt(plaintext, key)` with the source's validation. -/
def encrypt (plaintext key : JSValue) : Except JSError JSStr :=
  match plaintext with
  | .str p =>
    match key with
    | .str k =>
      if k.length = 0 then .error (.genericError "Key must be a non-empty string")
      else .ok (encryptStr p k)
    | _ => .error (.genericError "Key must be a non-empty string")
  | _ => .error (.typeError "Plaintext must be a string")

/-- Models `decrypt(ciphertext, key)` with the source's validation. -/
def decrypt (ciphertext key : JSValue) : Except JSError JSStr :=
  match ciphertext with
  | .str c =>
    match key with
    | .str k =>
      if k.length = 0 then .error (.genericError "Key must be a non-empty string")
      else .ok (decryptStr c k)
    | _ => .error (.genericError "Key must be a non-empty string")
  | _ => .error (.typeError "Ciphertext must be a string")

/-! ### Non-letter characters and the key cursor (C2) -/

/-- Number of alphabetic characters of a string: how far the key cursor has
advanced after processing it. -/
def countA (s : JSStr) : Nat := s.countP (fun c => isAlphaCode c)

/-! ### Frequency scoring and brute force (C7)

The source's frequency table holds decimal literals (`E: 11, …, V: 0.98,
Z: 0.07`), all exact multiples of `0.01`; scores are modelled as those values
scaled by 100, as integers.  The claims about `bruteForce` concern membership
and ordering of the result list, which the scaling preserves; exact IEEE-754
rounding of the JavaScript sums is not modelled. -/

/-- The `englishFrequency` table of `calculateTextScore`, scaled by 100 and
keyed by the upper-case letter's code unit. -/
def englishFrequency100 (c : Nat) : Nat :=
  if c = 69 then 1100 else if c = 84 then 900 else if c = 65 then 800
  else if c = 79 then 750 else if c = 73 then 700 else if c = 78 then 670
  else if c = 83 then 630 else if c = 72 then 610 else if c = 82 then 600
  else if c = 68 then 430 else if c = 76 then 400 else if c = 67 then 280
  else if c = 85 then 280 else if c = 77 then 240 else if c = 87 then 240
  else if c = 70 then 220 else if c = 71 then 200 else if c = 89 then 200
  else if c = 80 then 190 else if c = 66 then 150 else if c = 86 then 98
  else if c = 75 then 77 else if c = 74 then 15 else if c = 88 then 15
  else if c = 81 then 10 else if c = 90 then 7 else 0

/-- Models `calculateTextScore(text)`: uppercase the text, then sum the table value
of every `A`–`Z` character. -/
def calculateTextScore (text : JSStr) : Nat :=
  (jsToUpper text).foldl
    (fun acc c => if isUpperCode c then acc + englishFrequency100 c else acc) 0

/-- One `{key, plaintext, score}` record of `bruteForce`. -/
structure BFResult where
  key : JSStr
  plaintext : JSStr
  score : Nat
deriving DecidableEq

/-- The module's built-in `defaultWords` list. -/
def defaultWords : List JSStr :=
  [S "PASSWORD", S "SECRET", S "KEY", S "CIPHER", S "ENCRYPT", S "SECURITY",
   S "COMPUTER", S "ALGORITHM", S "CRYPTOGRAPHY", S "HASH", S "SYMMETRIC",
   S "ASYMMETRIC", S "MESSAGE", S "HELLO", S "WORLD", S "JAVASCRIPT",
   S "HACKTOBERFEST", S "CONTRIBUTE", S "GITHUB", S "VAULT", S "CRYPTO"]

/-- The loop body of `bruteForce`: try one candidate word, pushing a record on
success and swallowing any error (`try … catch { /* ignore */ }`). -/
def tryWord (ct : JSStr) (acc : List BFResult) (word : JSStr) : List BFResult :=
  match decrypt (.str ct) (.str word) with
  | .ok pt => acc ++ [⟨word, pt, calculateTextScore pt⟩]
  | .error _ => acc

/-- Stable insertion into a list sorted descending by score: a new record goes
after every record with an equal or larger score, exactly where the stable
`results.sort((a, b) => b.score - a.score)` (ES2019) places it. -/
def insertDesc (x : BFResult) : List BFResult → List BFResult
  | [] => [x]
  | y :: ys => if y.score < x.score then x :: y :: ys else y :: insertDesc x ys

/-- The unique stable descending-by-score sort. -/
def sortByScoreDesc (l : List BFResult) : List BFResult :=
  l.foldl (fun acc x => insertDesc x acc) []

/-- Models `bruteForce(ciphertext, commonWords)`. -/
def bruteForce (ciphertext : JSValue) (commonWords : List JSStr) :
    Except JSError (List BFResult) :=
  match ciphertext with
  | .str ct =>
    if ct.length = 0 then .error (.genericError "Ciphertext cannot be empty")
    else
      .ok (sortByScoreDesc
        ((if 0 < commonWords.length then commonWords else defaultWords).foldl
          (tryWord ct) []))
  | _ => .error (.genericError "Ciphertext cannot be empty")

/-- The records `bruteForce` accumulates before sorting: one per candidate
word whose decryption does not throw, i.e. per non-empty candidate. -/
def candidateResults (ct : JSStr) (words : List JSStr) : List BFResult :=
  (words.filter (fun w => !w.isEmpty)).map
    (fun w => ⟨w, decryptStr ct w, calculateTextScore (decryptStr ct w)⟩)

/-! ### Pair verification (C8) -/

/-- Models `verify(plaintext, ciphertext, key)`: all three must be strings, then the
plaintext is re-encrypted and compared with the ciphertext after uppercasing
both sides. -/
def verify (plaintext ciphertext key : JSValue) : Except JSError Bool :=
  match plaintext, ciphertext, key with
  | .str p, .str ct, .str k =>
    match encrypt (.str p) (.str k) with
    | .ok e => .ok (jsToUpper e == jsToUpper ct)
    | .error err => .error err
  | _, _, _ => .error (.typeError "All parameters must be strings")

/-! ### Kasiski analysis (C4, C9, C10)

`Map` iteration order in JavaScript is insertion order; both maps of
`analyze` are modelled as association lists in insertion order.
`Array.prototype.sort` is stable; both comparators (`(a, b) => a - b` on
divisors, `(a, b) => b[1] - a[1]` on tally entries) are modelled by stable
insertion sorts.  The loop bound `i <= Math.sqrt(num)` of `getDivisors`
compares the integer `i` with the correctly-rounded double square root,
which for the ranges reachable here (divisor deltas are bounded by the
ciphertext length) holds exactly when `i * i ≤ num`.  Repeat distances
`positions[i+1] - positions[i]` are differences of strictly increasing
window offsets, hence modelled with `Nat` subtraction. -/

/-- An `analyze` result object. -/
structure AnalysisResult where
  keyLengths : List Nat
  distances : List Nat
  likelyKeyLength : Option Nat
  repetitionCount : Nat
deriving DecidableEq

/-- Stable ascending insertion, for `divisors.sort((a, b) => a - b)`. -/
def insertAsc (x : Nat) : List Nat → List Nat
  | [] => [x]
  | y :: ys => if x < y then x :: y :: ys else y :: insertAsc x ys

def sortAsc (l : List Nat) : List Nat := l.foldl (fun acc x => insertAsc x acc) []

/-- One iteration of the `getDivisors` loop: at divisor candidate `i`, push
`i` and (unless they coincide) `num / i`. -/
def divisorPushes (num i : Nat) : List Nat :=
  if num % i = 0 then if i = num / i then [i] else [i, num / i] else []

/-- The loop indices of `getDivisors`: `i = 1, 2, …` while `i <= Math.sqrt(num)`.
For an integer `i` and the correctly-rounded double square root this condition
is exactly `i * i ≤ num`, so the indices are the `i ∈ [1, num]` with
`i * i ≤ num` (an executable rendering of `List.range' 1 (Nat.sqrt num)`). -/
def divisorCandidates (num : Nat) : List Nat :=
  (List.range' 1 num).filter (fun i => i * i ≤ num)

/-- Models `getDivisors(num)`: trial division up to `√num`, then sort ascending. -/
def getDivisors (num : Nat) : List Nat :=
  sortAsc ((divisorCandidates num).flatMap (divisorPushes num))

/-- Models `sequences.get(seq).push(i)` resp. `sequences.set(seq, [i])` on the
insertion-ordered map. -/
def addPos (seq : JSStr) (i : Nat) : List (JSStr × List Nat) → List (JSStr × List Nat)
  | [] => [(seq, [i])]
  | (k, ps) :: rest =>
    if k = seq then (k, ps ++ [i]) :: rest else (k, ps) :: addPos seq i rest

/-- Models `factors.set(divisor, (factors.get(divisor) || 0) + 1)` on the
insertion-ordered map. -/
def bumpCount (d : Nat) : List (Nat × Nat) → List (Nat × Nat)
  | [] => [(d, 1)]
  | (k, c) :: rest => if k = d then (k, c + 1) :: rest else (k, c) :: bumpCount d rest

/-- Consecutive differences of a position list. -/
def deltas : List Nat → List Nat
  | p1 :: p2 :: rest => (p2 - p1) :: deltas (p2 :: rest)
  | _ => []

/-- Stable descending-by-count insertion, for
`Array.from(factors.entries()).sort((a, b) => b[1] - a[1])`. -/
def insertPairDesc (x : Nat × Nat) : List (Nat × Nat) → List (Nat × Nat)
  | [] => [x]
  | y :: ys => if y.2 < x.2 then x :: y :: ys else y :: insertPairDesc x ys

def sortPairsDesc (l : List (Nat × Nat)) : List (Nat × Nat) :=
  l.foldl (fun acc x => insertPairDesc x acc) []

/-- The letters-only working sequence: `toUpperCase().replace(/[^A-Z]/g, '')`. -/
def stripToUpper (ct : JSStr) : JSStr := (jsToUpper ct).filter (fun c => isUpperCode c)

/-- The window start offsets `0 … length - sequenceLength` (none when the
working sequence is shorter than the window). -/
def windowStarts (n L : Nat) : List Nat := if n < L then [] else List.range (n - L + 1)

/-- Models `cipherUpper.substring(i, i + sequenceLength)`: the window of width `L`
starting at offset `i`. -/
def winAt (W : JSStr) (L i : Nat) : JSStr := (W.drop i).take L

/-- Models `analyze(ciphertext, sequenceLength)`: Kasiski examination. -/
def analyze (ciphertext : JSValue) (sequenceLength : Nat) :
    Except JSError AnalysisResult :=
  match ciphertext with
  | .str ct =>
    if ct.length < sequenceLength then
      .error (.genericError "Ciphertext too short for analysis")
    else
      let cipherUpper := stripToUpper ct
      let sequences := (windowStarts cipherUpper.length sequenceLength).foldl
        (fun m i => addPos (winAt cipherUpper sequenceLength i) i m) []
      let distances := sequences.foldl (fun acc kv => acc ++ deltas kv.2) []
      let factors := distances.foldl
        (fun m d => (getDivisors d).foldl (fun m2 dv => bumpCount dv m2) m) []
      let keyLengths := ((sortPairsDesc factors).take 5).map Prod.fst
      .ok
        { keyLengths := keyLengths
          distances := distances.take 10
          likelyKeyLength :=
            match keyLengths with
            | [] => none
            | x :: _ => if x = 0 then none else some x
          repetitionCount := distances.length }
  | _ => .error (.genericError "Ciphertext too short for analysis")

/-! ### Association-list maps: lookup, first-occurrence key order -/

/-- Models `Map.get` on an insertion-ordered association list. -/
def lookupKV {κ β : Type} [DecidableEq κ] (k : κ) : List (κ × β) → Option β
  | [] => none
  | (j, v) :: rest => if j = k then some v else lookupKV k rest

/-- The first occurrences of `l`, in order, that are not in `seen`. -/
def firstDedupAux {κ : Type} [DecidableEq κ] : List κ → List κ → List κ
  | _, [] => []
  | seen, x :: xs =>
    if x ∈ seen then firstDedupAux seen xs else x :: firstDedupAux (x :: seen) xs

/-- The distinct elements of `l` in order of first occurrence — the key order
of an insertion-ordered map built over `l`. -/
def firstDedup {κ : Type} [DecidableEq κ] (l : List κ) : List κ := firstDedupAux [] l

/-! ### Specification-level views of the analysis data -/

/-- Offsets at which window `w` occurs in the working sequence. -/
def occList (W : JSStr) (L : Nat) (w : JSStr) : List Nat :=
  (windowStarts W.length L).filter (fun i => winAt W L i = w)

/-- The distinct windows of width `L`, in order of first occurrence. -/
def distinctWindows (W : JSStr) (L : Nat) : List JSStr :=
  firstDedup ((windowStarts W.length L).map (winAt W L))

/-- All repeat deltas: for every distinct window in first-occurrence order,
the consecutive gaps between its occurrences. -/
def allDeltas (W : JSStr) (L : Nat) : List Nat :=
  (distinctWindows W L).flatMap (fun w => deltas (occList W L w))

/-- Every divisor of every repeat delta, with multiplicity. -/
def allDivisors (W : JSStr) (L : Nat) : List Nat :=
  (allDeltas W L).flatMap getDivisors

/-- The divisor tally, keyed in order of a divisor's first appearance. -/
def tallyEntries (W : JSStr) (L : Nat) : List (Nat × Nat) :=
  (firstDedup (allDivisors W L)).map (fun d => (d, List.count d (allDivisors W L)))

/-! ### Basic characterisations of the character classes -/

lemma isUpperCode_eq_true {c : Nat} : isUpperCode c = true ↔ 65 ≤ c ∧ c ≤ 90 := by
  simp [isUpperCode]

lemma isLowerCode_eq_true {c : Nat} : isLowerCode c = true ↔ 97 ≤ c ∧ c ≤ 122 := by
  simp [isLowerCode]

lemma isAlphaCode_eq_true {c : Nat} :
    isAlphaCode c = true ↔ (65 ≤ c ∧ c ≤ 90) ∨ (97 ≤ c ∧ c ≤ 122) := by
  simp [isAlphaCode, isUpperCode_eq_true, isLowerCode_eq_true]

lemma toUpperCode_bounds {c : Nat} (hc : isAlphaCode c = true) :
    65 ≤ toUpperCode c ∧ toUpperCode c ≤ 90 := by
  rcases isAlphaCode_eq_true.1 hc with h | h <;>
    · unfold toUpperCode
      split <;> rename_i hl <;> rw [isLowerCode_eq_true] at * <;> omega

/-! ### The per-character shift maps -/

lemma encShift_upper {s : Int} (hs0 : 0 ≤ s) (hs : s ≤ 25) {c : Nat}
    (h1 : 65 ≤ c) (h2 : c ≤ 90) :
    encShift s c = (((c : Int) - 65 + s) % 26 + 65).toNat := by
  rw [encShift, if_pos (isUpperCode_eq_true.2 ⟨h1, h2⟩), fromCharCode,
    Int.tmod_eq_emod (by omega) (by norm_num)]
  omega

lemma encShift_lower {s : Int} (hs0 : 0 ≤ s) (hs : s ≤ 25) {c : Nat}
    (h1 : 97 ≤ c) (h2 : c ≤ 122) :
    encShift s c = (((c : Int) - 97 + s) % 26 + 97).toNat := by
  rw [encShift, if_neg (by rw [isUpperCode_eq_true]; omega), fromCharCode,
    Int.tmod_eq_emod (by omega) (by norm_num)]
  omega

lemma decShift_upper {s : Int} (hs0 : 0 ≤ s) (hs : s ≤ 25) {c : Nat}
    (h1 : 65 ≤ c) (h2 : c ≤ 90) :
    decShift s c = (((c : Int) - 65 - s + 26) % 26 + 65).toNat := by
  rw [decShift, if_pos (isUpperCode_eq_true.2 ⟨h1, h2⟩), fromCharCode,
    Int.tmod_eq_emod (by omega) (by norm_num)]
  omega

lemma decShift_lower {s : Int} (hs0 : 0 ≤ s) (hs : s ≤ 25) {c : Nat}
    (h1 : 97 ≤ c) (h2 : c ≤ 122) :
    decShift s c = (((c : Int) - 97 - s + 26) % 26 + 97).toNat := by
  rw [decShift, if_neg (by rw [isUpperCode_eq_true]; omega), fromCharCode,
    Int.tmod_eq_emod (by omega) (by norm_num)]
  omega

/-- With an upper-case key letter (shift 0–25), encrypting then decrypting a
letter restores it, and the encrypted character is a letter of the same case. -/
lemma shift_roundtrip {s : Int} (hs0 : 0 ≤ s) (hs : s ≤ 25) {c : Nat}
    (hc : isAlphaCode c = true) :
    decShift s (encShift s c) = c ∧ isAlphaCode (encShift s c) = true ∧
      isUpperCode (encShift s c) = isUpperCode c := by
  rcases isAlphaCode_eq_true.1 hc with h | h
  · have he := encShift_upper hs0 hs h.1 h.2
    have hb1 : 65 ≤ encShift s c := by omega
    have hb2 : encShift s c ≤ 90 := by omega
    refine ⟨?_, isAlphaCode_eq_true.2 (.inl ⟨hb1, hb2⟩), ?_⟩
    · rw [decShift_upper hs0 hs hb1 hb2]
      omega
    · rw [isUpperCode_eq_true.2 ⟨hb1, hb2⟩, isUpperCode_eq_true.2 ⟨h.1, h.2⟩]
  · have he := encShift_lower hs0 hs h.1 h.2
    have hb1 : 97 ≤ encShift s c := by omega
    have hb2 : encShift s c ≤ 122 := by omega
    refine ⟨?_, isAlphaCode_eq_true.2 (.inr ⟨hb1, hb2⟩), ?_⟩
    · rw [decShift_lower hs0 hs hb1 hb2]
      omega
    · have h1 : isUpperCode (encShift s c) = false := by
        rw [Bool.eq_false_iff, Ne, isUpperCode_eq_true]
        omega
      have h2 : isUpperCode c = false := by
        rw [Bool.eq_false_iff, Ne, isUpperCode_eq_true]
        omega
      rw [h1, h2]

/-! ### The key cursor and the encryption loop -/

/-- Every shift the loop looks up in an uppercased all-alphabetic key is the
code of an upper-case letter. -/
lemma keyChar_bounds {k : JSStr} (hk : k ≠ []) (ha : ∀ c ∈ k, isAlphaCode c = true)
    (i : Nat) :
    65 ≤ (jsToUpper k).getD (i % (jsToUpper k).length) 0 ∧
      (jsToUpper k).getD (i % (jsToUpper k).length) 0 ≤ 90 := by
  have hlen : 0 < (jsToUpper k).length := by
    rw [jsToUpper, List.length_map]
    exact List.length_pos.2 hk
  have hidx : i % (jsToUpper k).length < (jsToUpper k).length := Nat.mod_lt _ hlen
  have hmem : (jsToUpper k).getD (i % (jsToUpper k).length) 0 ∈ jsToUpper k := by
    rw [List.getD_eq_getElem _ _ hidx]
    exact List.getElem_mem hidx
  rw [jsToUpper, List.mem_map] at hmem
  obtain ⟨c, hc, hcu⟩ := hmem
  rw [jsToUpper, ← hcu]
  exact toUpperCode_bounds (ha c hc)

/-- Decrypting an encrypted string with the same key and the same starting key
cursor restores the string, for any key whose uppercased form consists of
upper-case letters. -/
lemma decryptGo_encryptGo {kU : JSStr}
    (hb : ∀ i, 65 ≤ kU.getD (i % kU.length) 0 ∧ kU.getD (i % kU.length) 0 ≤ 90)
    (p : JSStr) : ∀ ki, decryptGo kU ki (encryptGo kU ki p) = p := by
  induction p with
  | nil => intro ki; rfl
  | cons c rest ih =>
    intro ki
    by_cases hc : isAlphaCode c = true
    · rw [encryptGo, if_pos hc]
      have hkc := hb ki
      have hs0 : (0 : Int) ≤ (kU.getD (ki % kU.length) 0 : Nat) - 65 := by omega
      have hs25 : ((kU.getD (ki % kU.length) 0 : Nat) - 65 : Int) ≤ 25 := by omega
      obtain ⟨hdec, halpha, _⟩ := shift_roundtrip hs0 hs25 hc
      rw [decryptGo, if_pos halpha, hdec, ih (ki + 1)]
    · rw [encryptGo, if_neg hc, decryptGo, if_neg hc, ih ki]

/-- The loop preserves length (spec's identity-length invariant). -/
lemma encryptGo_length (kU : JSStr) (p : JSStr) :
    ∀ ki, (encryptGo kU ki p).length = p.length := by
  induction p with
  | nil => intro ki; rfl
  | cons c rest ih =>
    intro ki
    by_cases hc : isAlphaCode c = true
    · rw [encryptGo, if_pos hc, List.length_cons, List.length_cons, ih]
    · rw [encryptGo, if_neg hc, List.length_cons, List.length_cons, ih]

lemma decryptStr_encryptStr (p k : JSStr) (hk : k ≠ [])
    (halpha : ∀ c ∈ k, isAlphaCode c = true) :
    decryptStr (encryptStr p k) k = p :=
  decryptGo_encryptGo (keyChar_bounds hk halpha) p 0

/-- C1: for every string `P` and every valid key `K` (non-empty alphabetic
string), `decrypt(encrypt(P, K), K) === P`. `P` ranges over all strings,
covering mixed case, digits, punctuation, whitespace and any length. -/
theorem decrypt_encrypt_roundTrip (p k : JSStr) (hk : k ≠ [])
    (halpha : ∀ c ∈ k, isAlphaCode c = true) :
    ∃ ct, encrypt (.str p) (.str k) = .ok ct ∧ decrypt (.str ct) (.str k) = .ok p := by
  have hlen : ¬ k.length = 0 := fun h => hk (List.length_eq_zero.1 h)
  refine ⟨encryptStr p k, ?_, ?_⟩
  · rw [encrypt, if_neg hlen]
  · rw [decrypt, if_neg hlen, decryptStr_encryptStr p k hk halpha]

/-- Witness for C1 at a concrete 1000-character plaintext and the key "KEY". -/
theorem decrypt_encrypt_roundTrip_witness :
    ∃ ct, encrypt (.str (List.replicate 1000 104)) (.str (S "KEY")) = .ok ct ∧
      decrypt (.str ct) (.str (S "KEY")) = .ok (List.replicate 1000 104) :=
  decrypt_encrypt_roundTrip _ _ (by decide) (by decide)

lemma countA_cons_alpha {c : Nat} (h : isAlphaCode c = true) (s : JSStr) :
    countA (c :: s) = countA s + 1 := by
  rw [countA, countA, List.countP_cons_of_pos _ _ h]

lemma countA_cons_nonalpha {c : Nat} (h : isAlphaCode c = false) (s : JSStr) :
    countA (c :: s) = countA s := by
  rw [countA, countA, List.countP_cons_of_neg]
  rw [h]
  exact Bool.false_ne_true

/-- The loop splits over append, advancing the cursor by the number of
alphabetic characters of the first part. -/
lemma encryptGo_append (kU : JSStr) (xs ys : JSStr) :
    ∀ ki, encryptGo kU ki (xs ++ ys) =
      encryptGo kU ki xs ++ encryptGo kU (ki + countA xs) ys := by
  induction xs with
  | nil =>
    intro ki
    rw [List.nil_append, encryptGo]
    rw [countA, List.countP_nil, Nat.add_zero]
    rfl
  | cons c rest ih =>
    intro ki
    by_cases hc : isAlphaCode c = true
    · rw [List.cons_append, encryptGo, if_pos hc, encryptGo, if_pos hc, ih (ki + 1),
        countA_cons_alpha hc, List.cons_append]
      have : ki + 1 + countA rest = ki + (countA rest + 1) := by omega
      rw [this]
    · have hcf : isAlphaCode c = false := by
        rw [Bool.eq_false_iff]
        exact hc
      rw [List.cons_append, encryptGo, if_neg hc, encryptGo, if_neg hc, ih ki,
        countA_cons_nonalpha hcf, List.cons_append]

/-- A non-alphabetic character is emitted unchanged at its own position, for
any cursor value. -/
lemma encryptGo_get_nonalpha (kU : JSStr) (p : JSStr) :
    ∀ ki i c, p.get? i = some c → isAlphaCode c = false →
      (encryptGo kU ki p).get? i = some c := by
  induction p with
  | nil => intro ki i c h _; simp at h
  | cons d rest ih =>
    intro ki i c h hna
    match i with
    | 0 =>
      rw [List.get?] at h
      injection h with h
      subst h
      rw [encryptGo, if_neg (by rw [hna]; exact Bool.false_ne_true)]
      rfl
    | Nat.succ j =>
      rw [List.get?] at h
      by_cases hd : isAlphaCode d = true
      · rw [encryptGo, if_pos hd]
        exact ih (ki + 1) j c h hna
      · rw [encryptGo, if_neg hd]
        exact ih ki j c h hna

/-- C2: non-alphabetic characters of the plaintext appear unchanged at the
same position of the ciphertext and do not advance the key cursor (deleting
one from the plaintext deletes it from the ciphertext and leaves every other
output character unchanged); concretely,
`encrypt("HELLO, WORLD!", "KEY") === "RIJVS, UYVJN!"`. -/
theorem encrypt_nonletter_preservation (p k : JSStr) (hk : k ≠ [])
    (halpha : ∀ c ∈ k, isAlphaCode c = true) :
    (∀ i c, p.get? i = some c → isAlphaCode c = false →
      (encryptStr p k).get? i = some c) ∧
    (∀ xs c ys, isAlphaCode c = false → p = xs ++ c :: ys →
      encryptStr p k =
        encryptStr xs k ++ c :: (encryptStr (xs ++ ys) k).drop xs.length) ∧
    encrypt (.str (S "HELLO, WORLD!")) (.str (S "KEY")) = .ok (S "RIJVS, UYVJN!") := by
  refine ⟨fun i c h hna => encryptGo_get_nonalpha _ p 0 i c h hna, ?_, by rfl⟩
  intro xs c ys hna hp
  subst hp
  have hstep : encryptGo (jsToUpper k) (countA xs) (c :: ys) =
      c :: encryptGo (jsToUpper k) (countA xs) ys := by
    rw [encryptGo, if_neg (by rw [hna]; exact Bool.false_ne_true)]
  rw [encryptStr, encryptStr, encryptStr, encryptGo_append, Nat.zero_add, hstep,
    encryptGo_append, Nat.zero_add, List.drop_left' (encryptGo_length _ xs 0)]

/-- Witness for C2: the non-letter `'!'` (code 33) of `"A!B"` survives at
position 1 under key `"KEY"`. -/
theorem encrypt_nonletter_preservation_witness :
    (encryptStr (S "A!B") (S "KEY")).get? 1 = some 33 :=
  (encrypt_nonletter_preservation (S "A!B") (S "KEY") (by decide) (by decide)).1
    1 33 (by decide) (by decide)

/-! ### Key case-independence (C5) -/

lemma isLowerCode_toUpperCode (c : Nat) : isLowerCode (toUpperCode c) = false := by
  by_cases h : isLowerCode c = true
  · have h1 : toUpperCode c = c - 32 := by rw [toUpperCode, if_pos h]
    rw [isLowerCode_eq_true] at h
    rw [h1, Bool.eq_false_iff, Ne, isLowerCode_eq_true]
    omega
  · have h1 : toUpperCode c = c := by rw [toUpperCode, if_neg h]
    rw [h1, Bool.eq_false_iff]
    exact h

lemma toUpperCode_toLowerCode (c : Nat) : toUpperCode (toLowerCode c) = toUpperCode c := by
  by_cases h : isUpperCode c = true
  · have h1 : toLowerCode c = c + 32 := by rw [toLowerCode, if_pos h]
    rw [isUpperCode_eq_true] at h
    have h2 : toUpperCode (c + 32) = c + 32 - 32 := by
      rw [toUpperCode, if_pos (isLowerCode_eq_true.2 (by omega))]
    have h3 : toUpperCode c = c := by
      rw [toUpperCode, if_neg (by rw [isLowerCode_eq_true]; omega)]
    rw [h1, h2, h3]
    omega
  · have h1 : toLowerCode c = c := by rw [toLowerCode, if_neg h]
    rw [h1]

lemma toUpperCode_toUpperCode (c : Nat) : toUpperCode (toUpperCode c) = toUpperCode c := by
  rw [toUpperCode, if_neg (by rw [isLowerCode_toUpperCode]; exact Bool.false_ne_true)]

lemma jsToUpper_jsToLower (k : JSStr) : jsToUpper (jsToLower k) = jsToUpper k := by
  rw [jsToUpper, jsToLower, List.map_map]
  exact List.map_congr_left fun c _ => toUpperCode_toLowerCode c

lemma jsToUpper_jsToUpper (k : JSStr) : jsToUpper (jsToUpper k) = jsToUpper k := by
  rw [jsToUpper, jsToUpper, List.map_map]
  exact List.map_congr_left fun c _ => toUpperCode_toUpperCode c

/-- C5: the case of key letters never affects the ciphertext:
`encrypt(P, K) === encrypt(P, K.toLowerCase()) === encrypt(P, K.toUpperCase())`. -/
theorem encrypt_key_case_independent (p k : JSStr) (hk : k ≠ [])
    (halpha : ∀ c ∈ k, isAlphaCode c = true) :
    encrypt (.str p) (.str k) = encrypt (.str p) (.str (jsToLower k)) ∧
    encrypt (.str p) (.str k) = encrypt (.str p) (.str (jsToUpper k)) := by
  have hlen : ¬ k.length = 0 := fun h => hk (List.length_eq_zero.1 h)
  have hlenl : ¬ (jsToLower k).length = 0 := by rw [jsToLower, List.length_map]; exact hlen
  have hlenu : ¬ (jsToUpper k).length = 0 := by rw [jsToUpper, List.length_map]; exact hlen
  constructor
  · rw [encrypt, encrypt, if_neg hlen, if_neg hlenl, encryptStr, encryptStr,
      jsToUpper_jsToLower]
  · rw [encrypt, encrypt, if_neg hlen, if_neg hlenu, encryptStr, encryptStr,
      jsToUpper_jsToUpper]

/-- Witness for C5 at `P = "Hi there"`, `K = "KeY"`. -/
theorem encrypt_key_case_independent_witness :
    encrypt (.str (S "Hi there")) (.str (S "KeY")) =
        encrypt (.str (S "Hi there")) (.str (jsToLower (S "KeY"))) ∧
      encrypt (.str (S "Hi there")) (.str (S "KeY")) =
        encrypt (.str (S "Hi there")) (.str (jsToUpper (S "KeY"))) :=
  encrypt_key_case_independent (S "Hi there") (S "KeY") (by decide) (by decide)

/-! ### Key validation (C3, C6) -/

/-- Counterexample to C3: the digit-only key `"1"` is not rejected — `encrypt`
returns a ciphertext (here the digit `'1'` itself, code 49) instead of a
validation error. -/
theorem encrypt_digit_key_not_rejected :
    encrypt (.str (S "A")) (.str (S "1")) = .ok (S "1") := by rfl

/-- C3 (amended): `encrypt` validates only that the key is a non-empty string;
a non-empty key containing non-alphabetic characters is accepted and a
ciphertext is produced. -/
theorem encrypt_nonalpha_key_accepted (p k : JSStr) (hk : k ≠ [])
    (hna : ∃ c ∈ k, isAlphaCode c = false) :
    ∃ ct, encrypt (.str p) (.str k) = .ok ct := by
  have hlen : ¬ k.length = 0 := fun h => hk (List.length_eq_zero.1 h)
  exact ⟨encryptStr p k, by rw [encrypt, if_neg hlen]⟩

/-- Witness for amended C3 at `P = "A"`, `K = "1"`. -/
theorem encrypt_nonalpha_key_accepted_witness :
    ∃ ct, encrypt (.str (S "A")) (.str (S "1")) = .ok ct :=
  encrypt_nonalpha_key_accepted (S "A") (S "1") (by decide) (by decide)

/-- C6: `encrypt(P, K)` errors exactly when `P` is not a string, `K` is not a
string, or `K` is empty; the error is a `TypeError` when `P` is not a string
and a generic validation error for a bad key; in particular
`encrypt("HELLO", "")` and `encrypt(123, "KEY")` both throw. -/
theorem encrypt_error_characterisation (p k : JSValue) :
    ((∃ e, encrypt p k = .error e) ↔
      (p.isString = false ∨ k.isString = false ∨ k = .str [])) ∧
    (p.isString = false → ∃ m, encrypt p k = .error (.typeError m)) ∧
    (p.isString = true → k.isString = false ∨ k = .str [] →
      ∃ m, encrypt p k = .error (.genericError m)) ∧
    encrypt (.str (S "HELLO")) (.str (S "")) =
      .error (.genericError "Key must be a non-empty string") ∧
    encrypt (.num 123) (.str (S "KEY")) =
      .error (.typeError "Plaintext must be a string") := by
  refine ⟨?_, ?_, ?_, by rfl, by rfl⟩
  · cases p <;> cases k <;>
      simp only [encrypt, JSValue.isString] <;>
      try simp
    rename_i k'
    by_cases hk' : k' = []
    · rw [if_pos hk']
      exact ⟨fun _ => hk', fun _ => ⟨_, rfl⟩⟩
    · rw [if_neg hk']
      constructor
      · rintro ⟨e, he⟩
        exact absurd he (by simp)
      · intro h
        exact absurd h hk'
  · intro hp
    cases p <;> simp [JSValue.isString] at hp <;> exact ⟨_, rfl⟩
  · intro hp hk
    cases p <;> simp [JSValue.isString] at hp
    cases k with
    | str k' =>
      rcases hk with h | h
      · simp [JSValue.isString] at h
      · injection h with h
        subst h
        exact ⟨_, rfl⟩
    | num n => exact ⟨_, rfl⟩
    | boolean b => exact ⟨_, rfl⟩
    | nullV => exact ⟨_, rfl⟩
    | undefinedV => exact ⟨_, rfl⟩

/-- Witness for C6: a non-string plaintext yields a `TypeError`. -/
theorem encrypt_error_characterisation_witness :
    ∃ m, encrypt (.num 123) (.str (S "KEY")) = .error (.typeError m) :=
  (encrypt_error_characterisation (.num 123) (.str (S "KEY"))).2.1 (by decide)

lemma candidateResults_cons_nil (ct : JSStr) (ws : List JSStr) :
    candidateResults ct ([] :: ws) = candidateResults ct ws := by
  rw [candidateResults, candidateResults, List.filter_cons_of_neg (by decide)]

lemma candidateResults_cons (ct : JSStr) {w : JSStr} (hw : w ≠ []) (ws : List JSStr) :
    candidateResults ct (w :: ws) =
      ⟨w, decryptStr ct w, calculateTextScore (decryptStr ct w)⟩ ::
        candidateResults ct ws := by
  rw [candidateResults, candidateResults,
    List.filter_cons_of_pos (by simp [List.isEmpty_iff, hw]), List.map_cons]

lemma foldl_tryWord (ct : JSStr) :
    ∀ (ws : List JSStr) (acc : List BFResult),
      ws.foldl (tryWord ct) acc = acc ++ candidateResults ct ws := by
  intro ws
  induction ws with
  | nil =>
    intro acc
    rw [List.foldl_nil, candidateResults, List.filter_nil, List.map_nil, List.append_nil]
  | cons w ws ih =>
    intro acc
    rw [List.foldl_cons]
    by_cases hw : w = []
    · subst hw
      have ht : tryWord ct acc [] = acc := rfl
      rw [ht, ih, candidateResults_cons_nil]
    · have hlen : ¬ (w.length = 0) := fun h => hw (List.length_eq_zero.1 h)
      have ht : tryWord ct acc w =
          acc ++ [⟨w, decryptStr ct w, calculateTextScore (decryptStr ct w)⟩] := by
        rw [tryWord, decrypt, if_neg hlen]
      rw [ht, ih, candidateResults_cons ct hw, List.append_assoc]
      rfl

lemma insertDesc_perm (x : BFResult) (l : List BFResult) :
    (insertDesc x l).Perm (x :: l) := by
  induction l with
  | nil => exact List.Perm.refl _
  | cons y ys ih =>
    rw [insertDesc]
    split
    · exact List.Perm.refl _
    · exact (ih.cons y).trans (List.Perm.swap x y ys)

lemma mem_insertDesc {z x : BFResult} {l : List BFResult} :
    z ∈ insertDesc x l ↔ z = x ∨ z ∈ l := by
  rw [(insertDesc_perm x l).mem_iff, List.mem_cons]

lemma insertDesc_pairwise {x : BFResult} {l : List BFResult}
    (h : List.Pairwise (fun a b => b.score ≤ a.score) l) :
    List.Pairwise (fun a b => b.score ≤ a.score) (insertDesc x l) := by
  induction l with
  | nil => exact List.pairwise_cons.2 ⟨fun z hz => absurd hz (List.not_mem_nil z), .nil⟩
  | cons y ys ih =>
    rw [List.pairwise_cons] at h
    obtain ⟨hy, hys⟩ := h
    rw [insertDesc]
    split <;> rename_i hcmp
    · refine List.pairwise_cons.2 ⟨?_, List.pairwise_cons.2 ⟨hy, hys⟩⟩
      intro z hz
      rcases List.mem_cons.1 hz with rfl | hz
      · omega
      · have := hy z hz
        omega
    · refine List.pairwise_cons.2 ⟨?_, ih hys⟩
      intro z hz
      rcases mem_insertDesc.1 hz with rfl | hz
      · omega
      · exact hy z hz

lemma insertDesc_filter_ne {x : BFResult} {s : Nat} (hx : ¬ x.score = s)
    (l : List BFResult) :
    (insertDesc x l).filter (fun r => r.score == s) =
      l.filter (fun r => r.score == s) := by
  induction l with
  | nil =>
    rw [insertDesc, List.filter_cons_of_neg (by simp [hx]), List.filter_nil]
  | cons y ys ih =>
    rw [insertDesc]
    split
    · rw [List.filter_cons_of_neg (by simp [hx])]
    · rw [List.filter_cons, List.filter_cons, ih]

lemma insertDesc_filter_eq {x : BFResult} {s : Nat} (hx : x.score = s) :
    ∀ {l : List BFResult}, List.Pairwise (fun a b => b.score ≤ a.score) l →
      (insertDesc x l).filter (fun r => r.score == s) =
        l.filter (fun r => r.score == s) ++ [x] := by
  intro l
  induction l with
  | nil =>
    intro _
    rw [insertDesc, List.filter_cons_of_pos (by simp [hx]), List.filter_nil,
      List.nil_append]
  | cons y ys ih =>
    intro h
    rw [List.pairwise_cons] at h
    obtain ⟨hy, hys⟩ := h
    rw [insertDesc]
    split <;> rename_i hcmp
    · have hnone : (y :: ys).filter (fun r => r.score == s) = [] := by
        rw [List.filter_eq_nil_iff]
        intro z hz
        rcases List.mem_cons.1 hz with rfl | hz
        · simp only [beq_iff_eq]
          omega
        · have := hy z hz
          simp only [beq_iff_eq]
          omega
      rw [List.filter_cons_of_pos (by simp [hx]), hnone, List.nil_append]
    · rw [List.filter_cons, List.filter_cons]
      by_cases hpy : (y.score == s) = true
      · rw [if_pos hpy, if_pos hpy, ih hys]
        rfl
      · rw [if_neg hpy, if_neg hpy, ih hys]

lemma sortFold_pairwise_filter (l : List BFResult) :
    ∀ acc, List.Pairwise (fun a b => b.score ≤ a.score) acc →
      List.Pairwise (fun a b => b.score ≤ a.score)
          (l.foldl (fun acc x => insertDesc x acc) acc) ∧
        ∀ s, (l.foldl (fun acc x => insertDesc x acc) acc).filter
            (fun r => r.score == s) =
          acc.filter (fun r => r.score == s) ++ l.filter (fun r => r.score == s) := by
  induction l with
  | nil =>
    intro acc hacc
    exact ⟨hacc, fun s => by rw [List.foldl_nil, List.filter_nil, List.append_nil]⟩
  | cons x l ih =>
    intro acc hacc
    rw [List.foldl_cons]
    obtain ⟨hs, hf⟩ := ih (insertDesc x acc) (insertDesc_pairwise hacc)
    refine ⟨hs, fun s => ?_⟩
    rw [hf s]
    by_cases hx : x.score = s
    · rw [insertDesc_filter_eq hx hacc, List.filter_cons_of_pos (by simp [hx]),
        List.append_assoc]
      rfl
    · rw [insertDesc_filter_ne hx, List.filter_cons_of_neg (by simp [hx])]

lemma sortFold_perm (l : List BFResult) :
    ∀ acc, (l.foldl (fun acc x => insertDesc x acc) acc).Perm (acc ++ l) := by
  induction l with
  | nil =>
    intro acc
    rw [List.foldl_nil, List.append_nil]
  | cons x l ih =>
    intro acc
    rw [List.foldl_cons]
    exact ((ih (insertDesc x acc)).trans
      (List.Perm.append_right l (insertDesc_perm x acc))).trans List.perm_middle.symm

lemma sortByScoreDesc_perm (l : List BFResult) : (sortByScoreDesc l).Perm l :=
  sortFold_perm l []

lemma sortByScoreDesc_pairwise (l : List BFResult) :
    List.Pairwise (fun a b => b.score ≤ a.score) (sortByScoreDesc l) :=
  (sortFold_pairwise_filter l [] .nil).1

lemma sortByScoreDesc_filter (l : List BFResult) (s : Nat) :
    (sortByScoreDesc l).filter (fun r => r.score == s) =
      l.filter (fun r => r.score == s) := by
  rw [sortByScoreDesc, (sortFold_pairwise_filter l [] .nil).2 s, List.filter_nil,
    List.nil_append]

/-- C7 counterexample: with candidates `["KEY", ""]` the empty-string
candidate makes `decrypt` throw and is silently skipped, so only one record
comes back for two tried candidate words. -/
theorem bruteForce_skips_empty_candidate :
    (bruteForce (.str (S "A")) [S "KEY", S ""]).map List.length = .ok 1 ∧
      ([S "KEY", S ""] : List JSStr).length = 2 := by
  constructor
  · rfl
  · rfl

/-- C7 (amended): `bruteForce` returns one `{key, plaintext, score}` record
per candidate word whose decryption succeeds — every non-empty candidate;
empty-string candidates are skipped — sorted descending by score, with
equal-score records in the order their candidates appear in the input word
list; `bruteForce(encrypt("HELLOWORLD","KEY"), ["KEY"])` returns the single
entry `{key: "KEY", plaintext: "HELLOWORLD"}`. -/
theorem bruteForce_sorted_stable (ct : JSStr) (hct : ct ≠ [])
    (words : List JSStr) (hw : words ≠ []) :
    ∃ r, bruteForce (.str ct) words = .ok r ∧
      r.Perm (candidateResults ct words) ∧
      List.Pairwise (fun a b => b.score ≤ a.score) r ∧
      (∀ s, r.filter (fun x => x.score == s) =
        (candidateResults ct words).filter (fun x => x.score == s)) ∧
      bruteForce (.str (encryptStr (S "HELLOWORLD") (S "KEY"))) [S "KEY"] =
        .ok [⟨S "KEY", S "HELLOWORLD", calculateTextScore (S "HELLOWORLD")⟩] := by
  have hctlen : ¬ ct.length = 0 := fun h => hct (List.length_eq_zero.1 h)
  have hwlen : 0 < words.length := List.length_pos.2 hw
  refine ⟨sortByScoreDesc (candidateResults ct words), ?_, ?_, ?_, ?_, by rfl⟩
  · rw [bruteForce, if_neg hctlen, if_pos hwlen, foldl_tryWord, List.nil_append]
  · exact sortByScoreDesc_perm _
  · exact sortByScoreDesc_pairwise _
  · exact fun s => sortByScoreDesc_filter _ s

/-- Witness for amended C7 at ciphertext "RIJVSUYVJN" and candidates
`["KEY", "SECRET"]`. -/
theorem bruteForce_sorted_stable_witness :
    ∃ r, bruteForce (.str (S "RIJVSUYVJN")) [S "KEY", S "SECRET"] = .ok r ∧
      r.Perm (candidateResults (S "RIJVSUYVJN") [S "KEY", S "SECRET"]) ∧
      List.Pairwise (fun a b => b.score ≤ a.score) r ∧
      (∀ s, r.filter (fun x => x.score == s) =
        (candidateResults (S "RIJVSUYVJN") [S "KEY", S "SECRET"]).filter
          (fun x => x.score == s)) ∧
      bruteForce (.str (encryptStr (S "HELLOWORLD") (S "KEY"))) [S "KEY"] =
        .ok [⟨S "KEY", S "HELLOWORLD", calculateTextScore (S "HELLOWORLD")⟩] :=
  bruteForce_sorted_stable (S "RIJVSUYVJN") (by decide) [S "KEY", S "SECRET"]
    (by decide)

/-- C8: `verify(P, encrypt(P, K), K) === true` for every valid key, and since
`verify` re-encrypts and compares case-insensitively, any ciphertext equal to
`encrypt(P, K)` up to letter case also verifies. -/
theorem verify_reencrypt_case_insensitive (p k : JSStr) (hk : k ≠ [])
    (halpha : ∀ c ∈ k, isAlphaCode c = true) :
    verify (.str p) (.str (encryptStr p k)) (.str k) = .ok true ∧
      ∀ ct : JSStr, jsToUpper ct = jsToUpper (encryptStr p k) →
        verify (.str p) (.str ct) (.str k) = .ok true := by
  have hlen : ¬ k.length = 0 := fun h => hk (List.length_eq_zero.1 h)
  have hgen : ∀ ct : JSStr, jsToUpper ct = jsToUpper (encryptStr p k) →
      verify (.str p) (.str ct) (.str k) = .ok true := by
    intro ct hct
    rw [verify, encrypt, if_neg hlen]
    rw [hct]
    simp
  exact ⟨hgen _ rfl, hgen⟩

/-- Witness for C8: `"HELLO"` with key `"KEY"` encrypts to `"RIJVS"`, and the
lower-cased ciphertext `"rijvs"` still verifies. -/
theorem verify_reencrypt_case_insensitive_witness :
    verify (.str (S "HELLO")) (.str (S "rijvs")) (.str (S "KEY")) = .ok true :=
  (verify_reencrypt_case_insensitive (S "HELLO") (S "KEY") (by decide)
    (by decide)).2 (S "rijvs") (by decide)

lemma lookupKV_eq_none {κ β : Type} [DecidableEq κ] {k : κ} :
    ∀ {m : List (κ × β)}, lookupKV k m = none ↔ k ∉ m.map Prod.fst := by
  intro m
  induction m with
  | nil => simp [lookupKV]
  | cons kv rest ih =>
    obtain ⟨j, v⟩ := kv
    rw [lookupKV]
    by_cases hj : j = k
    · subst hj
      simp
    · rw [if_neg hj, List.map_cons, List.mem_cons, ih]
      have : ¬ k = j := fun h => hj h.symm
      simp [this]

lemma firstDedupAux_congr {κ : Type} [DecidableEq κ] :
    ∀ (l seen₁ seen₂ : List κ), (∀ a, a ∈ seen₁ ↔ a ∈ seen₂) →
      firstDedupAux seen₁ l = firstDedupAux seen₂ l := by
  intro l
  induction l with
  | nil => intro _ _ _; rfl
  | cons x xs ih =>
    intro s₁ s₂ hs
    rw [firstDedupAux, firstDedupAux]
    by_cases hx : x ∈ s₁
    · rw [if_pos hx, if_pos ((hs x).1 hx), ih _ _ hs]
    · rw [if_neg hx, if_neg (fun h => hx ((hs x).2 h))]
      congr 1
      exact ih _ _ fun a => by
        simp only [List.mem_cons]
        exact or_congr Iff.rfl (hs a)

lemma mem_firstDedupAux {κ : Type} [DecidableEq κ] {a : κ} :
    ∀ {l seen : List κ}, a ∈ firstDedupAux seen l ↔ a ∈ l ∧ a ∉ seen := by
  intro l
  induction l with
  | nil => intro seen; simp [firstDedupAux]
  | cons x xs ih =>
    intro seen
    rw [firstDedupAux]
    by_cases hx : x ∈ seen
    · rw [if_pos hx, ih, List.mem_cons]
      constructor
      · rintro ⟨h1, h2⟩
        exact ⟨Or.inr h1, h2⟩
      · rintro ⟨rfl | h1, h2⟩
        · exact absurd hx h2
        · exact ⟨h1, h2⟩
    · rw [if_neg hx, List.mem_cons, List.mem_cons]
      constructor
      · rintro (rfl | h)
        · exact ⟨Or.inl rfl, hx⟩
        · rw [ih, List.mem_cons] at h
          push_neg at h
          exact ⟨Or.inr h.1, h.2.2⟩
      · rintro ⟨rfl | h1, h2⟩
        · exact Or.inl rfl
        · by_cases hax : a = x
          · exact Or.inl hax
          · refine Or.inr (ih.2 ⟨h1, ?_⟩)
            rw [List.mem_cons]
            push_neg
            exact ⟨hax, h2⟩

lemma mem_firstDedup {κ : Type} [DecidableEq κ] {a : κ} {l : List κ} :
    a ∈ firstDedup l ↔ a ∈ l := by
  rw [firstDedup, mem_firstDedupAux]
  simp

lemma firstDedup_nodup {κ : Type} [DecidableEq κ] :
    ∀ (l seen : List κ), (firstDedupAux seen l).Nodup := by
  intro l
  induction l with
  | nil => intro _; exact List.nodup_nil
  | cons x xs ih =>
    intro seen
    rw [firstDedupAux]
    by_cases hx : x ∈ seen
    · rw [if_pos hx]
      exact ih seen
    · rw [if_neg hx]
      refine List.nodup_cons.2 ⟨?_, ih _⟩
      intro hmem
      rw [mem_firstDedupAux] at hmem
      exact hmem.2 (List.mem_cons_self x seen)

/-- An association list with distinct keys is determined by its key order and
its lookup function. -/
lemma assoc_eq_map_keys {κ β : Type} [DecidableEq κ] (dflt : β) :
    ∀ {m : List (κ × β)}, (m.map Prod.fst).Nodup →
      m = (m.map Prod.fst).map (fun k => (k, (lookupKV k m).getD dflt)) := by
  intro m
  induction m with
  | nil => intro _; rfl
  | cons kv rest ih =>
    obtain ⟨j, v⟩ := kv
    intro h
    rw [List.map_cons, List.nodup_cons] at h
    obtain ⟨hj, hrest⟩ := h
    rw [List.map_cons, List.map_cons]
    congr 1
    · rw [lookupKV, if_pos rfl]
      rfl
    · refine ((List.map_congr_left fun k hk => ?_).trans (ih hrest).symm).symm
      have hne : ¬ j = k := fun e => hj (e ▸ hk)
      rw [lookupKV, if_neg hne]

/-! ### Characterising the two map-building folds of `analyze` -/

lemma addPos_keys (seq : JSStr) (i : Nat) :
    ∀ m : List (JSStr × List Nat),
      (addPos seq i m).map Prod.fst =
        if seq ∈ m.map Prod.fst then m.map Prod.fst else m.map Prod.fst ++ [seq] := by
  intro m
  induction m with
  | nil =>
    rw [addPos, List.map_nil, if_neg (List.not_mem_nil seq), List.nil_append]
    rfl
  | cons kv rest ih =>
    obtain ⟨k, ps⟩ := kv
    rw [addPos]
    by_cases hk : k = seq
    · subst hk
      rw [if_pos rfl, List.map_cons, List.map_cons, if_pos (List.mem_cons_self _ _)]
    · rw [if_neg hk, List.map_cons, List.map_cons, ih]
      by_cases hmem : seq ∈ rest.map Prod.fst
      · rw [if_pos hmem, if_pos (List.mem_cons_of_mem _ hmem)]
      · rw [if_neg hmem, if_neg (by
            rw [List.mem_cons]
            push_neg
            exact ⟨fun h => hk h.symm, hmem⟩),
          List.cons_append]

lemma addPos_lookup_self (seq : JSStr) (i : Nat) :
    ∀ m, lookupKV seq (addPos seq i m) = some ((lookupKV seq m).getD [] ++ [i]) := by
  intro m
  induction m with
  | nil => simp [addPos, lookupKV]
  | cons kv rest ih =>
    obtain ⟨k, ps⟩ := kv
    rw [addPos]
    by_cases hk : k = seq
    · rw [if_pos hk, lookupKV, if_pos hk, lookupKV, if_pos hk]
      rfl
    · rw [if_neg hk, lookupKV, if_neg hk, lookupKV, if_neg hk, ih]

lemma addPos_lookup_other {seq w : JSStr} (hne : w ≠ seq) (i : Nat) :
    ∀ m, lookupKV w (addPos seq i m) = lookupKV w m := by
  intro m
  induction m with
  | nil => simp [addPos, lookupKV, Ne.symm hne]
  | cons kv rest ih =>
    obtain ⟨k, ps⟩ := kv
    rw [addPos]
    by_cases hk : k = seq
    · have hkw : ¬ k = w := fun h => hne (h ▸ hk)
      rw [if_pos hk, lookupKV, lookupKV, if_neg hkw, if_neg hkw]
    · rw [if_neg hk, lookupKV, lookupKV]
      by_cases hw : k = w
      · rw [if_pos hw, if_pos hw]
      · rw [if_neg hw, if_neg hw, ih]

lemma bumpCount_keys (d : Nat) :
    ∀ m : List (Nat × Nat),
      (bumpCount d m).map Prod.fst =
        if d ∈ m.map Prod.fst then m.map Prod.fst else m.map Prod.fst ++ [d] := by
  intro m
  induction m with
  | nil =>
    rw [bumpCount, List.map_nil, if_neg (List.not_mem_nil d), List.nil_append]
    rfl
  | cons kv rest ih =>
    obtain ⟨k, c⟩ := kv
    rw [bumpCount]
    by_cases hk : k = d
    · subst hk
      rw [if_pos rfl, List.map_cons, List.map_cons, if_pos (List.mem_cons_self _ _)]
    · rw [if_neg hk, List.map_cons, List.map_cons, ih]
      by_cases hmem : d ∈ rest.map Prod.fst
      · rw [if_pos hmem, if_pos (List.mem_cons_of_mem _ hmem)]
      · rw [if_neg hmem, if_neg (by
            rw [List.mem_cons]
            push_neg
            exact ⟨fun h => hk h.symm, hmem⟩),
          List.cons_append]

lemma bumpCount_lookup_self (d : Nat) :
    ∀ m, lookupKV d (bumpCount d m) = some ((lookupKV d m).getD 0 + 1) := by
  intro m
  induction m with
  | nil => simp [bumpCount, lookupKV]
  | cons kv rest ih =>
    obtain ⟨k, c⟩ := kv
    rw [bumpCount]
    by_cases hk : k = d
    · rw [if_pos hk, lookupKV, if_pos hk, lookupKV, if_pos hk]
      rfl
    · rw [if_neg hk, lookupKV, if_neg hk, lookupKV, if_neg hk, ih]

lemma bumpCount_lookup_other {d w : Nat} (hne : w ≠ d) :
    ∀ m, lookupKV w (bumpCount d m) = lookupKV w m := by
  intro m
  induction m with
  | nil => simp [bumpCount, lookupKV, Ne.symm hne]
  | cons kv rest ih =>
    obtain ⟨k, c⟩ := kv
    rw [bumpCount]
    by_cases hk : k = d
    · have hkw : ¬ k = w := fun h => hne (h ▸ hk)
      rw [if_pos hk, lookupKV, lookupKV, if_neg hkw, if_neg hkw]
    · rw [if_neg hk, lookupKV, lookupKV]
      by_cases hw : k = w
      · rw [if_pos hw, if_pos hw]
      · rw [if_neg hw, if_neg hw, ih]

lemma seqFold_keys (win : Nat → JSStr) :
    ∀ (idxs : List Nat) (m : List (JSStr × List Nat)),
      (idxs.foldl (fun m i => addPos (win i) i m) m).map Prod.fst =
        m.map Prod.fst ++ firstDedupAux (m.map Prod.fst) (idxs.map win) := by
  intro idxs
  induction idxs with
  | nil =>
    intro m
    rw [List.foldl_nil, List.map_nil, firstDedupAux, List.append_nil]
  | cons i idxs ih =>
    intro m
    rw [List.foldl_cons, ih, List.map_cons, firstDedupAux, addPos_keys]
    by_cases hmem : win i ∈ m.map Prod.fst
    · rw [if_pos hmem, if_pos hmem]
    · have hseen : firstDedupAux (m.map Prod.fst ++ [win i]) (idxs.map win) =
          firstDedupAux (win i :: m.map Prod.fst) (idxs.map win) :=
        firstDedupAux_congr _ _ _ fun a => by
          rw [List.mem_append, List.mem_singleton, List.mem_cons]
          exact or_comm
      rw [if_neg hmem, if_neg hmem, hseen, List.append_assoc]
      rfl

lemma seqFold_lookup (win : Nat → JSStr) :
    ∀ (idxs : List Nat) (m : List (JSStr × List Nat)) (w : JSStr),
      w ∈ m.map Prod.fst ∨ w ∈ idxs.map win →
      lookupKV w (idxs.foldl (fun m i => addPos (win i) i m) m) =
        some ((lookupKV w m).getD [] ++ idxs.filter (fun i => win i = w)) := by
  intro idxs
  induction idxs with
  | nil =>
    intro m w hw
    rw [List.foldl_nil, List.filter_nil, List.append_nil]
    rcases hw with hw | hw
    · cases hcase : lookupKV w m with
      | none => exact absurd hw (lookupKV_eq_none.1 hcase)
      | some v => rfl
    · exact absurd hw (List.not_mem_nil w)
  | cons i idxs ih =>
    intro m w hw
    rw [List.foldl_cons]
    by_cases hwi : win i = w
    · subst hwi
      have hmem : win i ∈ (addPos (win i) i m).map Prod.fst := by
        rw [addPos_keys]
        split_ifs with h
        · exact h
        · exact List.mem_append.2 (Or.inr (List.mem_singleton.2 rfl))
      rw [ih _ _ (Or.inl hmem), addPos_lookup_self, Option.getD_some,
        List.filter_cons_of_pos (by simp), List.append_assoc]
      rfl
    · have hstep := addPos_lookup_other (fun h => hwi h.symm) i m
      have hw' : w ∈ (addPos (win i) i m).map Prod.fst ∨ w ∈ idxs.map win := by
        rcases hw with hw | hw
        · left
          rw [addPos_keys]
          split_ifs
          · exact hw
          · exact List.mem_append.2 (Or.inl hw)
        · rw [List.map_cons, List.mem_cons] at hw
          rcases hw with rfl | hw
          · exact absurd rfl hwi
          · exact Or.inr hw
      rw [ih _ _ hw', hstep, List.filter_cons_of_neg (by simp [hwi])]

lemma tallyFold_keys :
    ∀ (ds : List Nat) (m : List (Nat × Nat)),
      (ds.foldl (fun m d => bumpCount d m) m).map Prod.fst =
        m.map Prod.fst ++ firstDedupAux (m.map Prod.fst) ds := by
  intro ds
  induction ds with
  | nil =>
    intro m
    rw [List.foldl_nil, firstDedupAux, List.append_nil]
  | cons d ds ih =>
    intro m
    rw [List.foldl_cons, ih, firstDedupAux, bumpCount_keys]
    by_cases hmem : d ∈ m.map Prod.fst
    · rw [if_pos hmem, if_pos hmem]
    · have hseen : firstDedupAux (m.map Prod.fst ++ [d]) ds =
          firstDedupAux (d :: m.map Prod.fst) ds :=
        firstDedupAux_congr _ _ _ fun a => by
          rw [List.mem_append, List.mem_singleton, List.mem_cons]
          exact or_comm
      rw [if_neg hmem, if_neg hmem, hseen, List.append_assoc]
      rfl

lemma tallyFold_lookup :
    ∀ (ds : List Nat) (m : List (Nat × Nat)) (d : Nat),
      d ∈ m.map Prod.fst ∨ d ∈ ds →
      lookupKV d (ds.foldl (fun m d => bumpCount d m) m) =
        some ((lookupKV d m).getD 0 + List.count d ds) := by
  intro ds
  induction ds with
  | nil =>
    intro m d hd
    rw [List.foldl_nil, List.count_nil, Nat.add_zero]
    rcases hd with hd | hd
    · cases hcase : lookupKV d m with
      | none => exact absurd hd (lookupKV_eq_none.1 hcase)
      | some v => rfl
    · exact absurd hd (List.not_mem_nil d)
  | cons e ds ih =>
    intro m d hd
    rw [List.foldl_cons]
    by_cases hde : e = d
    · subst hde
      have hmem : e ∈ (bumpCount e m).map Prod.fst := by
        rw [bumpCount_keys]
        split_ifs with h
        · exact h
        · exact List.mem_append.2 (Or.inr (List.mem_singleton.2 rfl))
      rw [ih _ _ (Or.inl hmem), bumpCount_lookup_self, Option.getD_some,
        List.count_cons_self]
      congr 1
      omega
    · have hne : d ≠ e := fun h => hde h.symm
      have hw' : d ∈ (bumpCount e m).map Prod.fst ∨ d ∈ ds := by
        rcases hd with hd | hd
        · left
          rw [bumpCount_keys]
          split_ifs
          · exact hd
          · exact List.mem_append.2 (Or.inl hd)
        · rw [List.mem_cons] at hd
          rcases hd with rfl | hd
          · exact absurd rfl hde
          · exact Or.inr hd
      rw [ih _ _ hw', bumpCount_lookup_other hne, List.count_cons_of_ne hne]

lemma sequences_eq (W : JSStr) (L : Nat) :
    (windowStarts W.length L).foldl (fun m i => addPos (winAt W L i) i m) [] =
      (distinctWindows W L).map (fun w => (w, occList W L w)) := by
  have hkeys : ((windowStarts W.length L).foldl
      (fun m i => addPos (winAt W L i) i m) []).map Prod.fst = distinctWindows W L := by
    rw [seqFold_keys (winAt W L) (windowStarts W.length L) []]
    rfl
  have hnodup : (((windowStarts W.length L).foldl
      (fun m i => addPos (winAt W L i) i m) []).map Prod.fst).Nodup := by
    rw [hkeys]
    exact firstDedup_nodup _ _
  rw [assoc_eq_map_keys ([] : List Nat) hnodup, hkeys]
  refine List.map_congr_left fun w hw => ?_
  have hw' : w ∈ (windowStarts W.length L).map (winAt W L) := by
    rw [distinctWindows, mem_firstDedup] at hw
    exact hw
  rw [seqFold_lookup (winAt W L) _ [] w (Or.inr hw')]
  rw [lookupKV, Option.getD_none, List.nil_append, Option.getD_some]
  rfl

lemma distancesFold_eq :
    ∀ (m : List (JSStr × List Nat)) (acc : List Nat),
      m.foldl (fun acc kv => acc ++ deltas kv.2) acc =
        acc ++ m.flatMap (fun kv => deltas kv.2) := by
  intro m
  induction m with
  | nil =>
    intro acc
    rw [List.foldl_nil, List.flatMap_nil, List.append_nil]
  | cons kv rest ih =>
    intro acc
    rw [List.foldl_cons, ih, List.flatMap_cons, List.append_assoc]

lemma distances_eq (W : JSStr) (L : Nat) :
    ((distinctWindows W L).map (fun w => (w, occList W L w))).foldl
        (fun acc kv => acc ++ deltas kv.2) [] = allDeltas W L := by
  rw [distancesFold_eq, List.nil_append, List.flatMap_map]
  rfl

lemma nestedTally_eq :
    ∀ (ds : List Nat) (m : List (Nat × Nat)),
      ds.foldl (fun m d => (getDivisors d).foldl (fun m2 dv => bumpCount dv m2) m) m =
        (ds.flatMap getDivisors).foldl (fun m2 dv => bumpCount dv m2) m := by
  intro ds
  induction ds with
  | nil =>
    intro m
    rw [List.foldl_nil, List.flatMap_nil, List.foldl_nil]
  | cons d ds ih =>
    intro m
    rw [List.foldl_cons, ih, List.flatMap_cons, List.foldl_append]

lemma factors_eq (W : JSStr) (L : Nat) :
    (allDivisors W L).foldl (fun m2 dv => bumpCount dv m2) [] = tallyEntries W L := by
  have hkeys : ((allDivisors W L).foldl (fun m2 dv => bumpCount dv m2) []).map Prod.fst =
      firstDedup (allDivisors W L) := by
    rw [tallyFold_keys (allDivisors W L) []]
    rfl
  have hnodup : (((allDivisors W L).foldl
      (fun m2 dv => bumpCount dv m2) []).map Prod.fst).Nodup := by
    rw [hkeys]
    exact firstDedup_nodup _ _
  rw [assoc_eq_map_keys (0 : Nat) hnodup, hkeys]
  refine List.map_congr_left fun d hd => ?_
  have hd' : d ∈ allDivisors W L := mem_firstDedup.1 hd
  rw [tallyFold_lookup (allDivisors W L) [] d (Or.inr hd')]
  rw [lookupKV, Option.getD_none, Option.getD_some, Nat.zero_add]

/-- Models `analyze` on a long-enough string, written with the spec-level views. -/
lemma analyze_eq (ct : JSStr) (L : Nat) (h : ¬ ct.length < L) :
    analyze (.str ct) L = .ok
      { keyLengths :=
          ((sortPairsDesc (tallyEntries (stripToUpper ct) L)).take 5).map Prod.fst
        distances := (allDeltas (stripToUpper ct) L).take 10
        likelyKeyLength :=
          match ((sortPairsDesc (tallyEntries (stripToUpper ct) L)).take 5).map
              Prod.fst with
          | [] => none
          | x :: _ => if x = 0 then none else some x
        repetitionCount := (allDeltas (stripToUpper ct) L).length } := by
  rw [analyze, if_neg h]
  dsimp only
  rw [sequences_eq, distances_eq, nestedTally_eq]
  have hdiv : (allDeltas (stripToUpper ct) L).flatMap getDivisors =
      allDivisors (stripToUpper ct) L := rfl
  rw [hdiv, factors_eq]

/-! ### Divisor lists -/

lemma insertAsc_perm (x : Nat) (l : List Nat) : (insertAsc x l).Perm (x :: l) := by
  induction l with
  | nil => exact List.Perm.refl _
  | cons y ys ih =>
    rw [insertAsc]
    split
    · exact List.Perm.refl _
    · exact (ih.cons y).trans (List.Perm.swap x y ys)

lemma sortAsc_perm (l : List Nat) : (sortAsc l).Perm l := by
  suffices h : ∀ (l acc : List Nat),
      (l.foldl (fun acc x => insertAsc x acc) acc).Perm (acc ++ l) by
    exact h l []
  intro l
  induction l with
  | nil =>
    intro acc
    rw [List.foldl_nil, List.append_nil]
  | cons x l ih =>
    intro acc
    rw [List.foldl_cons]
    exact ((ih (insertAsc x acc)).trans
      (List.Perm.append_right l (insertAsc_perm x acc))).trans List.perm_middle.symm

lemma mem_sortAsc {x : Nat} {l : List Nat} : x ∈ sortAsc l ↔ x ∈ l :=
  (sortAsc_perm l).mem_iff

lemma insertAsc_pairwise {x : Nat} {l : List Nat}
    (h : List.Pairwise (fun a b => a ≤ b) l) :
    List.Pairwise (fun a b => a ≤ b) (insertAsc x l) := by
  induction l with
  | nil => exact List.pairwise_cons.2 ⟨fun z hz => absurd hz (List.not_mem_nil z), .nil⟩
  | cons y ys ih =>
    rw [List.pairwise_cons] at h
    obtain ⟨hy, hys⟩ := h
    rw [insertAsc]
    split <;> rename_i hcmp
    · refine List.pairwise_cons.2 ⟨?_, List.pairwise_cons.2 ⟨hy, hys⟩⟩
      intro z hz
      rcases List.mem_cons.1 hz with rfl | hz
      · omega
      · have := hy z hz
        omega
    · refine List.pairwise_cons.2 ⟨?_, ih hys⟩
      intro z hz
      rcases List.mem_cons.1 ((insertAsc_perm x ys).mem_iff.1 hz) with rfl | hz
      · omega
      · exact hy z hz

lemma sortAsc_pairwise (l : List Nat) :
    List.Pairwise (fun a b => a ≤ b) (sortAsc l) := by
  suffices h : ∀ (l acc : List Nat), List.Pairwise (fun a b => a ≤ b) acc →
      List.Pairwise (fun a b => a ≤ b) (l.foldl (fun acc x => insertAsc x acc) acc) by
    exact h l [] .nil
  intro l
  induction l with
  | nil => intro acc hacc; exact hacc
  | cons x l ih =>
    intro acc hacc
    rw [List.foldl_cons]
    exact ih _ (insertAsc_pairwise hacc)

lemma mem_divisorPushes {num i d : Nat} :
    d ∈ divisorPushes num i ↔
      num % i = 0 ∧ (d = i ∨ (i ≠ num / i ∧ d = num / i)) := by
  rw [divisorPushes]
  split <;> rename_i h1
  · split <;> rename_i h2
    · rw [List.mem_singleton]
      constructor
      · intro h
        exact ⟨h1, Or.inl h⟩
      · rintro ⟨_, h | ⟨hne, h⟩⟩
        · exact h
        · exact absurd h2 hne
    · rw [List.mem_cons, List.mem_singleton]
      constructor
      · rintro (h | h)
        · exact ⟨h1, Or.inl h⟩
        · exact ⟨h1, Or.inr ⟨h2, h⟩⟩
      · rintro ⟨_, h | ⟨_, h⟩⟩
        · exact Or.inl h
        · exact Or.inr h
  · constructor
    · intro h
      exact absurd h (List.not_mem_nil d)
    · rintro ⟨h, _⟩
      exact absurd h h1

lemma mem_divisorCandidates {num i : Nat} :
    i ∈ divisorCandidates num ↔ 1 ≤ i ∧ i * i ≤ num := by
  rw [divisorCandidates, List.mem_filter, List.mem_range'_1, decide_eq_true_eq]
  constructor
  · rintro ⟨⟨h1, _⟩, h2⟩
    exact ⟨h1, h2⟩
  · rintro ⟨h1, h2⟩
    have : i ≤ i * i := Nat.le_mul_of_pos_left i h1
    exact ⟨⟨h1, by omega⟩, h2⟩

lemma getDivisors_pos {num d : Nat} (hd : d ∈ getDivisors num) : 1 ≤ d := by
  rw [getDivisors, mem_sortAsc, List.mem_flatMap] at hd
  obtain ⟨i, hi, hdi⟩ := hd
  rw [mem_divisorCandidates] at hi
  rw [mem_divisorPushes] at hdi
  obtain ⟨hmod, hcase⟩ := hdi
  rcases hcase with rfl | ⟨_, rfl⟩
  · exact hi.1
  · have hile : i ≤ num := le_trans (Nat.le_mul_of_pos_left i hi.1) hi.2
    exact (Nat.one_le_div_iff (by omega)).2 hile

lemma one_mem_getDivisors {num : Nat} (h : 1 ≤ num) : 1 ∈ getDivisors num := by
  rw [getDivisors, mem_sortAsc, List.mem_flatMap]
  refine ⟨1, mem_divisorCandidates.2 ⟨le_refl 1, by omega⟩, ?_⟩
  rw [mem_divisorPushes]
  exact ⟨Nat.mod_one num, Or.inl rfl⟩

/-- The divisor list of a positive number starts with 1. -/
lemma getDivisors_head {num : Nat} (h : 1 ≤ num) :
    ∃ t, getDivisors num = 1 :: t := by
  have hmem := one_mem_getDivisors h
  have hsorted := sortAsc_pairwise
    ((divisorCandidates num).flatMap (divisorPushes num))
  cases hds : getDivisors num with
  | nil => rw [hds] at hmem; exact absurd hmem (List.not_mem_nil 1)
  | cons x t =>
    refine ⟨t, ?_⟩
    have hx : x ∈ getDivisors num := by rw [hds]; exact List.mem_cons_self _ _
    have hx1 : 1 ≤ x := getDivisors_pos hx
    rw [hds] at hmem
    rcases List.mem_cons.1 hmem with h1 | h1
    · rw [← h1]
    · have : x ≤ 1 := by
        rw [getDivisors] at hds
        rw [hds] at hsorted
        exact (List.pairwise_cons.1 hsorted).1 1 h1
      have : x = 1 := by omega
      rw [this]

/-- No two distinct loop indices push the same divisor. -/
lemma divisorPushes_disjoint {num i j d : Nat} (hi1 : 1 ≤ i) (hii : i * i ≤ num)
    (hj1 : 1 ≤ j) (hjj : j * j ≤ num) (hij : i ≠ j)
    (hdi : d ∈ divisorPushes num i) (hdj : d ∈ divisorPushes num j) : False := by
  rw [mem_divisorPushes] at hdi hdj
  obtain ⟨hmi, hci⟩ := hdi
  obtain ⟨hmj, hcj⟩ := hdj
  have hdvi : i * (num / i) = num := Nat.mul_div_cancel' (Nat.dvd_of_mod_eq_zero hmi)
  have hdvj : j * (num / j) = num := Nat.mul_div_cancel' (Nat.dvd_of_mod_eq_zero hmj)
  rcases hci with hie | ⟨hgi, hie⟩ <;> rcases hcj with hje | ⟨hgj, hje⟩
  · exact hij (by omega)
  · -- d = i and d = num / j: num = j * i, and the square bounds force i = j
    have heq : i = num / j := by omega
    rw [← heq] at hdvj
    have h1 : i ≤ j := Nat.le_of_mul_le_mul_right (c := i) (by omega) (by omega)
    have h2 : j ≤ i := Nat.le_of_mul_le_mul_left (c := j) (by omega) (by omega)
    exact hij (by omega)
  · -- d = num / i and d = j: num = i * j, symmetric squeeze
    have heq : j = num / i := by omega
    rw [← heq] at hdvi
    have h1 : j ≤ i := Nat.le_of_mul_le_mul_right (c := j) (by omega) (by omega)
    have h2 : i ≤ j := Nat.le_of_mul_le_mul_left (c := i) (by omega) (by omega)
    exact hij (by omega)
  · -- num / i = num / j and both divide num, so i = j
    have heq : num / i = num / j := by omega
    rw [← heq] at hdvj
    have hile : i ≤ num := le_trans (Nat.le_mul_of_pos_left i hi1) hii
    have hd1 : 0 < num / i := (Nat.one_le_div_iff (by omega)).2 hile
    exact hij (Nat.eq_of_mul_eq_mul_right hd1 (by omega))

lemma divisorPushes_nodup (num i : Nat) : (divisorPushes num i).Nodup := by
  rw [divisorPushes]
  split
  · split <;> rename_i hne
    · exact List.nodup_singleton _
    · refine List.nodup_cons.2 ⟨?_, List.nodup_singleton _⟩
      rw [List.mem_singleton]
      exact hne
  · exact List.nodup_nil

lemma count_divisorPushes_le_one (num i d : Nat) :
    List.count d (divisorPushes num i) ≤ 1 :=
  List.nodup_iff_count_le_one.1 (divisorPushes_nodup num i) d

lemma count_flatMap_divisorPushes_le_one (num d : Nat) :
    ∀ (l : List Nat), l.Nodup → (∀ i ∈ l, 1 ≤ i ∧ i * i ≤ num) →
      List.count d (l.flatMap (divisorPushes num)) ≤ 1 := by
  intro l
  induction l with
  | nil =>
    intro _ _
    rw [List.flatMap_nil, List.count_nil]
    omega
  | cons i l ih =>
    intro hnodup hbound
    rw [List.nodup_cons] at hnodup
    rw [List.flatMap_cons, List.count_append]
    by_cases hd : d ∈ divisorPushes num i
    · have hzero : List.count d (l.flatMap (divisorPushes num)) = 0 := by
        rw [List.count_eq_zero]
        intro hmem
        rw [List.mem_flatMap] at hmem
        obtain ⟨j, hj, hdj⟩ := hmem
        have hbi := hbound i (List.mem_cons_self _ _)
        have hbj := hbound j (List.mem_cons_of_mem _ hj)
        exact divisorPushes_disjoint hbi.1 hbi.2 hbj.1 hbj.2
          (fun h => hnodup.1 (h ▸ hj)) hd hdj
      rw [hzero]
      have := count_divisorPushes_le_one num i d
      omega
    · rw [List.count_eq_zero.2 hd, Nat.zero_add]
      exact ih hnodup.2 (fun j hj => hbound j (List.mem_cons_of_mem _ hj))

lemma count_getDivisors_le_one (num d : Nat) :
    List.count d (getDivisors num) ≤ 1 := by
  rw [getDivisors, (sortAsc_perm _).count_eq]
  exact count_flatMap_divisorPushes_le_one num d _
    ((List.nodup_range' 1 num).filter _) (fun i hi => mem_divisorCandidates.1 hi)

lemma count_one_getDivisors {num : Nat} (h : 1 ≤ num) :
    List.count 1 (getDivisors num) = 1 := by
  have h1 := count_getDivisors_le_one num 1
  have h2 : 0 < List.count 1 (getDivisors num) :=
    List.count_pos_iff.2 (one_mem_getDivisors h)
  omega

/-! ### C10: the length precondition is on the raw ciphertext -/

lemma isUpperCode_toUpperCode (c : Nat) : isUpperCode (toUpperCode c) = isAlphaCode c := by
  by_cases h : isLowerCode c = true
  · have h1 : toUpperCode c = c - 32 := by rw [toUpperCode, if_pos h]
    have hb := isLowerCode_eq_true.1 h
    rw [h1, isAlphaCode, h, Bool.or_true, isUpperCode_eq_true.2 (by omega)]
  · have h1 : toUpperCode c = c := by rw [toUpperCode, if_neg h]
    rw [h1, isAlphaCode, Bool.eq_false_iff.2 h, Bool.or_false]

/-- The working sequence keeps exactly the alphabetic characters. -/
lemma stripToUpper_length (ct : JSStr) : (stripToUpper ct).length = countA ct := by
  rw [stripToUpper, jsToUpper, countA, ← List.countP_eq_length_filter,
    List.countP_map]
  exact List.countP_congr fun c _ => by
    rw [Function.comp_apply, isUpperCode_toUpperCode]

/-- C10: `analyze` validates its length precondition against the raw
ciphertext, not the letters-only working sequence: when the raw length is at
least `sequenceLength` but fewer than `sequenceLength` characters are
alphabetic, `analyze` throws nothing and returns the empty analysis. -/
theorem analyze_letterless (ct : JSStr) (L : Nat) (hlen : L ≤ ct.length)
    (halpha : countA ct < L) :
    analyze (.str ct) L = .ok ⟨[], [], none, 0⟩ := by
  have h : ¬ ct.length < L := by omega
  have hstrip : (stripToUpper ct).length < L := by
    rw [stripToUpper_length]
    exact halpha
  have hws : windowStarts (stripToUpper ct).length L = [] := by
    rw [windowStarts, if_pos hstrip]
  have hdw : distinctWindows (stripToUpper ct) L = [] := by
    rw [distinctWindows, hws, List.map_nil]
    rfl
  have hdl : allDeltas (stripToUpper ct) L = [] := by
    rw [allDeltas, hdw]
    rfl
  have hte : tallyEntries (stripToUpper ct) L = [] := by
    rw [tallyEntries, allDivisors, hdl]
    rfl
  rw [analyze_eq ct L h, hdl, hte]
  rfl

/-- Witness for C10 at `analyze("!!!!!", 3)`. -/
theorem analyze_letterless_witness :
    analyze (.str (S "!!!!!")) 3 = .ok ⟨[], [], none, 0⟩ :=
  analyze_letterless (S "!!!!!") 3 (by decide) (by decide)

/-! ### The stable descending sort on tally entries -/

lemma insertPairDesc_perm (x : Nat × Nat) (l : List (Nat × Nat)) :
    (insertPairDesc x l).Perm (x :: l) := by
  induction l with
  | nil => exact List.Perm.refl _
  | cons y ys ih =>
    rw [insertPairDesc]
    split
    · exact List.Perm.refl _
    · exact (ih.cons y).trans (List.Perm.swap x y ys)

lemma sortPairsDesc_perm (l : List (Nat × Nat)) : (sortPairsDesc l).Perm l := by
  suffices h : ∀ (l acc : List (Nat × Nat)),
      (l.foldl (fun acc x => insertPairDesc x acc) acc).Perm (acc ++ l) by
    exact h l []
  intro l
  induction l with
  | nil =>
    intro acc
    rw [List.foldl_nil, List.append_nil]
  | cons x l ih =>
    intro acc
    rw [List.foldl_cons]
    exact ((ih (insertPairDesc x acc)).trans
      (List.Perm.append_right l (insertPairDesc_perm x acc))).trans
      List.perm_middle.symm

lemma insertPairDesc_pairwise {x : Nat × Nat} {l : List (Nat × Nat)}
    (h : List.Pairwise (fun a b => b.2 ≤ a.2) l) :
    List.Pairwise (fun a b => b.2 ≤ a.2) (insertPairDesc x l) := by
  induction l with
  | nil => exact List.pairwise_cons.2 ⟨fun z hz => absurd hz (List.not_mem_nil z), .nil⟩
  | cons y ys ih =>
    rw [List.pairwise_cons] at h
    obtain ⟨hy, hys⟩ := h
    rw [insertPairDesc]
    split <;> rename_i hcmp
    · refine List.pairwise_cons.2 ⟨?_, List.pairwise_cons.2 ⟨hy, hys⟩⟩
      intro z hz
      rcases List.mem_cons.1 hz with rfl | hz
      · omega
      · have := hy z hz
        omega
    · refine List.pairwise_cons.2 ⟨?_, ih hys⟩
      intro z hz
      rcases List.mem_cons.1 ((insertPairDesc_perm x ys).mem_iff.1 hz) with rfl | hz
      · omega
      · exact hy z hz

lemma sortPairsDesc_pairwise (l : List (Nat × Nat)) :
    List.Pairwise (fun a b => b.2 ≤ a.2) (sortPairsDesc l) := by
  suffices h : ∀ (l acc : List (Nat × Nat)),
      List.Pairwise (fun a b => b.2 ≤ a.2) acc →
        List.Pairwise (fun a b => b.2 ≤ a.2)
          (l.foldl (fun acc x => insertPairDesc x acc) acc) by
    exact h l [] .nil
  intro l
  induction l with
  | nil => intro acc hacc; exact hacc
  | cons x l ih =>
    intro acc hacc
    rw [List.foldl_cons]
    exact ih _ (insertPairDesc_pairwise hacc)

lemma insertPairDesc_filter_ne {x : Nat × Nat} {s : Nat} (hx : ¬ x.2 = s)
    (l : List (Nat × Nat)) :
    (insertPairDesc x l).filter (fun p => p.2 == s) =
      l.filter (fun p => p.2 == s) := by
  induction l with
  | nil =>
    rw [insertPairDesc, List.filter_cons_of_neg (by simp [hx]), List.filter_nil]
  | cons y ys ih =>
    rw [insertPairDesc]
    split
    · rw [List.filter_cons_of_neg (by simp [hx])]
    · rw [List.filter_cons, List.filter_cons, ih]

lemma insertPairDesc_filter_eq {x : Nat × Nat} {s : Nat} (hx : x.2 = s) :
    ∀ {l : List (Nat × Nat)}, List.Pairwise (fun a b => b.2 ≤ a.2) l →
      (insertPairDesc x l).filter (fun p => p.2 == s) =
        l.filter (fun p => p.2 == s) ++ [x] := by
  intro l
  induction l with
  | nil =>
    intro _
    rw [insertPairDesc, List.filter_cons_of_pos (by simp [hx]), List.filter_nil,
      List.nil_append]
  | cons y ys ih =>
    intro h
    rw [List.pairwise_cons] at h
    obtain ⟨hy, hys⟩ := h
    rw [insertPairDesc]
    split <;> rename_i hcmp
    · have hnone : (y :: ys).filter (fun p => p.2 == s) = [] := by
        rw [List.filter_eq_nil_iff]
        intro z hz
        rcases List.mem_cons.1 hz with rfl | hz
        · simp only [beq_iff_eq]
          omega
        · have := hy z hz
          simp only [beq_iff_eq]
          omega
      rw [List.filter_cons_of_pos (by simp [hx]), hnone, List.nil_append]
    · rw [List.filter_cons, List.filter_cons]
      by_cases hpy : (y.2 == s) = true
      · rw [if_pos hpy, if_pos hpy, ih hys]
        rfl
      · rw [if_neg hpy, if_neg hpy, ih hys]

/-- Ties keep the input (first-occurrence) order: filtering the sorted tally
at any fixed count gives the input's entries of that count, in input order. -/
lemma sortPairsDesc_filter (l : List (Nat × Nat)) (s : Nat) :
    (sortPairsDesc l).filter (fun p => p.2 == s) =
      l.filter (fun p => p.2 == s) := by
  suffices h : ∀ (l acc : List (Nat × Nat)),
      List.Pairwise (fun a b => b.2 ≤ a.2) acc →
        (l.foldl (fun acc x => insertPairDesc x acc) acc).filter
            (fun p => p.2 == s) =
          acc.filter (fun p => p.2 == s) ++ l.filter (fun p => p.2 == s) by
    rw [sortPairsDesc, h l [] .nil, List.filter_nil, List.nil_append]
  intro l
  induction l with
  | nil =>
    intro acc hacc
    rw [List.foldl_nil, List.filter_nil, List.append_nil]
  | cons x l ih =>
    intro acc hacc
    rw [List.foldl_cons, ih _ (insertPairDesc_pairwise hacc)]
    by_cases hx : x.2 = s
    · rw [insertPairDesc_filter_eq hx hacc, List.filter_cons_of_pos (by simp [hx]),
        List.append_assoc]
      rfl
    · rw [insertPairDesc_filter_ne hx, List.filter_cons_of_neg (by simp [hx])]

/-- Inserting below a maximal first entry keeps it first. -/
lemma sortPairsDesc_cons_max {k c : Nat} {rest : List (Nat × Nat)}
    (hmax : ∀ p ∈ rest, p.2 ≤ c) :
    sortPairsDesc ((k, c) :: rest) = (k, c) :: sortPairsDesc rest := by
  suffices h : ∀ (rest acc : List (Nat × Nat)), (∀ p ∈ rest, p.2 ≤ c) →
      rest.foldl (fun acc x => insertPairDesc x acc) ((k, c) :: acc) =
        (k, c) :: rest.foldl (fun acc x => insertPairDesc x acc) acc by
    rw [sortPairsDesc, List.foldl_cons, sortPairsDesc]
    exact h rest [] hmax
  intro rest
  induction rest with
  | nil => intro acc _; rw [List.foldl_nil, List.foldl_nil]
  | cons x rest ih =>
    intro acc hmax'
    rw [List.foldl_cons, List.foldl_cons, insertPairDesc,
      if_neg (by
        have := hmax' x (List.mem_cons_self _ _)
        omega),
      ih _ (fun p hp => hmax' p (List.mem_cons_of_mem _ hp))]

/-! ### C9: the most frequent divisor is always 1 -/

lemma deltas_pos : ∀ (l : List Nat), List.Pairwise (fun a b => a < b) l →
    ∀ δ ∈ deltas l, 1 ≤ δ
  | [], _, δ, hδ => absurd hδ (by rw [show deltas [] = [] from rfl]; exact List.not_mem_nil δ)
  | [p], _, δ, hδ => absurd hδ (by rw [show deltas [p] = [] from rfl]; exact List.not_mem_nil δ)
  | p1 :: p2 :: rest, h, δ, hδ => by
    rw [show deltas (p1 :: p2 :: rest) = (p2 - p1) :: deltas (p2 :: rest) from rfl,
      List.mem_cons] at hδ
    have h12 : p1 < p2 := (List.pairwise_cons.1 h).1 p2 (List.mem_cons_self _ _)
    rcases hδ with rfl | hδ
    · omega
    · exact deltas_pos (p2 :: rest) (List.pairwise_cons.1 h).2 δ hδ

lemma windowStarts_pairwise (n L : Nat) :
    List.Pairwise (fun a b => a < b) (windowStarts n L) := by
  rw [windowStarts]
  split
  · exact .nil
  · exact List.pairwise_lt_range _

lemma allDeltas_pos (W : JSStr) (L : Nat) : ∀ δ ∈ allDeltas W L, 1 ≤ δ := by
  intro δ hδ
  rw [allDeltas, List.mem_flatMap] at hδ
  obtain ⟨w, _, hδ⟩ := hδ
  rw [occList] at hδ
  exact deltas_pos _ (List.Pairwise.filter _ (windowStarts_pairwise _ _)) δ hδ

lemma count_one_flatMap_getDivisors (ds : List Nat) (h : ∀ δ ∈ ds, 1 ≤ δ) :
    List.count 1 (ds.flatMap getDivisors) = ds.length := by
  induction ds with
  | nil => rfl
  | cons δ ds ih =>
    rw [List.flatMap_cons, List.count_append,
      count_one_getDivisors (h δ (List.mem_cons_self _ _)),
      ih (fun x hx => h x (List.mem_cons_of_mem _ hx)), List.length_cons]
    omega

lemma count_flatMap_getDivisors_le (ds : List Nat) (d : Nat) :
    List.count d (ds.flatMap getDivisors) ≤ ds.length := by
  induction ds with
  | nil =>
    rw [List.flatMap_nil, List.count_nil]
    exact Nat.le_refl 0
  | cons δ ds ih =>
    rw [List.flatMap_cons, List.count_append, List.length_cons]
    have := count_getDivisors_le_one δ d
    omega

/-- C9: whenever the analysis finds at least one repeated sequence
(`repetitionCount > 0`), `likelyKeyLength` is exactly 1: the divisor 1
divides every repeat distance, so its tally is maximal, and it is the first
divisor inserted into the tally map, so the stable descending sort puts it
first. -/
theorem analyze_likelyKeyLength_always_one (ct : JSStr) (L : Nat)
    (r : AnalysisResult) (hok : analyze (.str ct) L = .ok r)
    (hrep : 0 < r.repetitionCount) :
    r.likelyKeyLength = some 1 := by
  by_cases h : ct.length < L
  · rw [analyze, if_pos h] at hok
    exact absurd hok (by simp)
  rw [analyze_eq ct L h] at hok
  injection hok with hok
  subst hok
  dsimp only at hrep ⊢
  have hδpos := allDeltas_pos (stripToUpper ct) L
  cases hdl : allDeltas (stripToUpper ct) L with
  | nil => rw [hdl, List.length_nil] at hrep; exact absurd hrep (by omega)
  | cons δ0 dtail =>
    have hδ0 : 1 ≤ δ0 := hδpos δ0 (by rw [hdl]; exact List.mem_cons_self _ _)
    obtain ⟨t, hgd⟩ := getDivisors_head hδ0
    have hdivs : allDivisors (stripToUpper ct) L =
        1 :: (t ++ dtail.flatMap getDivisors) := by
      rw [allDivisors, hdl, List.flatMap_cons, hgd, List.cons_append]
    have hcount1 : List.count 1 (allDivisors (stripToUpper ct) L) =
        (allDeltas (stripToUpper ct) L).length :=
      count_one_flatMap_getDivisors _ hδpos
    have hcountle : ∀ d, List.count d (allDivisors (stripToUpper ct) L) ≤
        (allDeltas (stripToUpper ct) L).length :=
      fun d => count_flatMap_getDivisors_le _ d
    have hfd : firstDedup (allDivisors (stripToUpper ct) L) =
        1 :: firstDedupAux [1] (t ++ dtail.flatMap getDivisors) := by
      rw [hdivs, firstDedup, firstDedupAux, if_neg (List.not_mem_nil 1)]
    have htally : tallyEntries (stripToUpper ct) L =
        (1, List.count 1 (allDivisors (stripToUpper ct) L)) ::
          (firstDedupAux [1] (t ++ dtail.flatMap getDivisors)).map
            (fun d => (d, List.count d (allDivisors (stripToUpper ct) L))) := by
      rw [tallyEntries, hfd, List.map_cons]
    have hmax : ∀ p ∈ (firstDedupAux [1] (t ++ dtail.flatMap getDivisors)).map
        (fun d => (d, List.count d (allDivisors (stripToUpper ct) L))),
        p.2 ≤ List.count 1 (allDivisors (stripToUpper ct) L) := by
      intro p hp
      rw [List.mem_map] at hp
      obtain ⟨d, _, hpd⟩ := hp
      rw [← hpd, hcount1]
      exact hcountle d
    have hsort : sortPairsDesc (tallyEntries (stripToUpper ct) L) =
        (1, List.count 1 (allDivisors (stripToUpper ct) L)) ::
          sortPairsDesc ((firstDedupAux [1] (t ++ dtail.flatMap getDivisors)).map
            (fun d => (d, List.count d (allDivisors (stripToUpper ct) L)))) := by
      rw [htally]
      exact sortPairsDesc_cons_max hmax
    rw [hsort]
    rfl

/-- Witness for C9 at `analyze("ABCABC", 3)`, which has one repeat at
distance 3. -/
theorem analyze_likelyKeyLength_always_one_witness :
    (AnalysisResult.mk [1, 3] [3] (some 1) 1).likelyKeyLength = some 1 :=
  analyze_likelyKeyLength_always_one (S "ABCABC") 3 _ (by rfl) (by decide)

/-! ### C4: the top-5 ordering and its tie-break -/

/-- Counterexample to C4's tie-break: for the ciphertext
`"ABCDABCXYZQRSXYZ"` the repeat distances are 4 and 6, the divisor tallies
are `1 ↦ 2, 2 ↦ 2, 4 ↦ 1, 3 ↦ 1, 6 ↦ 1`, and the three tied divisors come
out in first-appearance order `4, 3, 6` — not in ascending order `3, 4, 6`
as the claim states. -/
theorem analyze_tiebreak_counterexample :
    analyze (.str (S "ABCDABCXYZQRSXYZ")) 3 =
        .ok ⟨[1, 2, 4, 3, 6], [4, 6], some 1, 2⟩ ∧
      [1, 2, 4, 3, 6] ≠ [1, 2, 3, 4, 6] :=
  ⟨by rfl, by decide⟩

/-- C4 (amended): `keyLengths` is the first 5 entries of the divisor tally
sorted descending by tally count with ties kept in the order the divisors
first appear across the distances (stable sort over the insertion-ordered
tally map), `likelyKeyLength` is the first element of that order (none when
there are no entries), `distances` is the first 10 raw deltas, and
`repetitionCount` is the total number of deltas.  `sortPairsDesc_pairwise`,
`sortPairsDesc_filter` and `sortPairsDesc_perm` say the sort is exactly
"descending by count, ties stable". -/
theorem analyze_top5_characterisation (ct : JSStr) (L : Nat)
    (r : AnalysisResult) (hok : analyze (.str ct) L = .ok r) :
    r.distances = (allDeltas (stripToUpper ct) L).take 10 ∧
    r.repetitionCount = (allDeltas (stripToUpper ct) L).length ∧
    r.keyLengths =
      ((sortPairsDesc (tallyEntries (stripToUpper ct) L)).take 5).map Prod.fst ∧
    List.Pairwise
      (fun a b => List.count b (allDivisors (stripToUpper ct) L) ≤
        List.count a (allDivisors (stripToUpper ct) L)) r.keyLengths ∧
    r.likelyKeyLength = r.keyLengths.head? := by
  by_cases h : ct.length < L
  · rw [analyze, if_pos h] at hok
    exact absurd hok (by simp)
  rw [analyze_eq ct L h] at hok
  injection hok with hok
  subst hok
  refine ⟨rfl, rfl, rfl, ?_, ?_⟩
  · -- descending tallies along keyLengths
    have hsorted := sortPairsDesc_pairwise (tallyEntries (stripToUpper ct) L)
    have htake := hsorted.sublist (List.take_sublist 5 _)
    have hmem : ∀ p ∈ (sortPairsDesc (tallyEntries (stripToUpper ct) L)).take 5,
        p.2 = List.count p.1 (allDivisors (stripToUpper ct) L) := by
      intro p hp
      have hp' : p ∈ sortPairsDesc (tallyEntries (stripToUpper ct) L) :=
        (List.take_sublist 5 _).subset hp
      have hp'' : p ∈ tallyEntries (stripToUpper ct) L :=
        (sortPairsDesc_perm _).mem_iff.1 hp'
      rw [tallyEntries, List.mem_map] at hp''
      obtain ⟨d, _, hpd⟩ := hp''
      rw [← hpd]
    rw [List.pairwise_map]
    refine htake.imp_of_mem ?_
    intro a b ha hb hle
    rw [← hmem a ha, ← hmem b hb]
    exact hle
  · -- likelyKeyLength is the head (no key length is 0)
    cases hkl : ((sortPairsDesc (tallyEntries (stripToUpper ct) L)).take 5).map
        Prod.fst with
    | nil => rfl
    | cons x rest =>
      have hx : 1 ≤ x := by
        have hxm : x ∈ ((sortPairsDesc (tallyEntries (stripToUpper ct) L)).take
            5).map Prod.fst := by
          rw [hkl]
          exact List.mem_cons_self _ _
        rw [List.mem_map] at hxm
        obtain ⟨p, hp, hpx⟩ := hxm
        have hp' : p ∈ tallyEntries (stripToUpper ct) L :=
          (sortPairsDesc_perm _).mem_iff.1 ((List.take_sublist 5 _).subset hp)
        rw [tallyEntries, List.mem_map] at hp'
        obtain ⟨d, hd, hpd⟩ := hp'
        have hd' : d ∈ allDivisors (stripToUpper ct) L := mem_firstDedup.1 hd
        rw [allDivisors, List.mem_flatMap] at hd'
        obtain ⟨δ, _, hdδ⟩ := hd'
        have := getDivisors_pos hdδ
        rw [← hpx, ← hpd]
        exact this
      show (if x = 0 then none else some x) = (x :: rest).head?
      rw [List.head?_cons, if_neg (by omega)]

/-- Witness for amended C4 at `analyze("ABCDABCXYZQRSXYZ", 3)`. -/
theorem analyze_top5_characterisation_witness :
    (AnalysisResult.mk [1, 2, 4, 3, 6] [4, 6] (some 1) 2).distances =
        (allDeltas (stripToUpper (S "ABCDABCXYZQRSXYZ")) 3).take 10 ∧
      (AnalysisResult.mk [1, 2, 4, 3, 6] [4, 6] (some 1) 2).repetitionCount =
        (allDeltas (stripToUpper (S "ABCDABCXYZQRSXYZ")) 3).length ∧
      (AnalysisResult.mk [1, 2, 4, 3, 6] [4, 6] (some 1) 2).keyLengths =
        ((sortPairsDesc (tallyEntries (stripToUpper (S "ABCDABCXYZQRSXYZ"))
          3)).take 5).map Prod.fst ∧
      List.Pairwise
        (fun a b =>
          List.count b (allDivisors (stripToUpper (S "ABCDABCXYZQRSXYZ")) 3) ≤
            List.count a (allDivisors (stripToUpper (S "ABCDABCXYZQRSXYZ")) 3))
        (AnalysisResult.mk [1, 2, 4, 3, 6] [4, 6] (some 1) 2).keyLengths ∧
      (AnalysisResult.mk [1, 2, 4, 3, 6] [4, 6] (some 1) 2).likelyKeyLength =
        (AnalysisResult.mk [1, 2, 4, 3, 6] [4, 6] (some 1) 2).keyLengths.head? :=
  analyze_top5_characterisation (S "ABCDABCXYZQRSXYZ") 3 _ (by rfl)

end Vigenere
